import Mathlib

/-!
Verification of the subtitle parser and dialogue resolver of `gifclip`
(`src/srt.rs` and the dialogue-mode fragment of `src/main.rs`).

Strings are modelled as `List Char`; byte positions of the Rust code become
character indices (the inputs of interest are ASCII, where the two coincide).
`f64` second values are modelled as `ℚ`: all arithmetic performed on times in
the source (`h*3600 + m*60 + s + ms/1000`, padding sums, `max` with `0`) is
exact rational arithmetic, and all decisions are order comparisons.
The `\d` and `\s` regex classes are modelled by `Char.isDigit` and
`Char.isWhitespace`, and Rust's `to_lowercase` by `Char.toLower`
(the ASCII fragment, which is what subtitle matching exercises).
-/

namespace Gifclip

/-- Index of the first occurrence of `pat` in `t` (Rust `str::find`):
`some p` when `pat` occurs starting at position `p` and at no earlier
position, `none` when `pat` does not occur in `t`. -/
def findSub : List Char → List Char → Option Nat
  | [], pat => if pat.isPrefixOf ([] : List Char) then some 0 else none
  | c :: rest, pat =>
    if pat.isPrefixOf (c :: rest) then some 0
    else (findSub rest pat).map (· + 1)

/-- Rust `str::contains` for string patterns: `pat` occurs contiguously in `t`. -/
def containsSub (t pat : List Char) : Bool :=
  (findSub t pat).isSome

/-- Rust `str::to_lowercase`, ASCII fragment. -/
def lowerL (l : List Char) : List Char :=
  l.map Char.toLower

/-- Accumulator-based splitter behind `splitWS`; `acc` holds the current word
reversed. -/
def splitWSAux : List Char → List Char → List (List Char)
  | acc, [] => if acc = [] then [] else [acc.reverse]
  | acc, c :: rest =>
    if c.isWhitespace then
      if acc = [] then splitWSAux [] rest
      else acc.reverse :: splitWSAux [] rest
    else splitWSAux (c :: acc) rest

/-- Rust `str::split_whitespace`: maximal runs of non-whitespace characters. -/
def splitWS (l : List Char) : List (List Char) :=
  splitWSAux [] l

/-- Tier 2 of `find_dialogue` (`srt.rs:93-111`): find every query word in
order, each search starting where the previous match ended
(`last_pos += pos + word.len()`). -/
def wordsInOrder : List (List Char) → List Char → Bool
  | [], _ => true
  | w :: ws, t =>
    match findSub t w with
    | some p => wordsInOrder ws (t.drop (p + w.length))
    | none => false

/-- Tier 3 word count (`srt.rs:118-121`): how many query words occur anywhere
in `t`. -/
def countWords (ws : List (List Char)) (t : List Char) : Nat :=
  (ws.filter (fun w => containsSub t w)).length

/-- A parsed subtitle entry (`srt.rs:6-11`); `end` is a Lean keyword, so the
field is named `end_`. -/
structure SubtitleEntry where
  start : ℚ
  end_ : ℚ
  text : List Char
deriving DecidableEq, Repr

/-- One step of the tier-3 best-match loop (`srt.rs:116-132`): an entry with a
positive count replaces the current best only when its count is strictly
greater. -/
def fuzzyStep (ws : List (List Char)) (acc : Option (SubtitleEntry × Nat))
    (e : SubtitleEntry) : Option (SubtitleEntry × Nat) :=
  let m := countWords ws (lowerL e.text)
  if 0 < m then
    match acc with
    | some (be, bc) => if bc < m then some (e, m) else some (be, bc)
    | none => some (e, m)
  else acc

/-- The tier-3 scan over all entries (`srt.rs:114-132`). -/
def bestFuzzy (ws : List (List Char)) (entries : List SubtitleEntry) :
    Option (SubtitleEntry × Nat) :=
  entries.foldl (fuzzyStep ws) none

/-- `find_dialogue` (`srt.rs:82-141`): three-tier cascade; a failure carries
the original query text (the `bail!` message's payload). -/
def find_dialogue (entries : List SubtitleEntry) (query : List Char) :
    Except (List Char) SubtitleEntry :=
  let query_lower := lowerL query
  let query_words := splitWS query_lower
  match entries.find? (fun e => containsSub (lowerL e.text) query_lower) with
  | some e => .ok e
  | none =>
    match entries.find? (fun e => wordsInOrder query_words (lowerL e.text)) with
    | some e => .ok e
    | none =>
      match bestFuzzy query_words entries with
      | some (e, m) =>
        if query_words.length / 2 ≤ m then .ok e else .error query
      | none => .error query

/-- Fuelled driver for `replaceAll`; each step removes the leftmost remaining
occurrence, so fuel `s.length + 1` is always sufficient for a non-empty
pattern. -/
def replaceAllFuel : Nat → List Char → List Char → List Char
  | 0, _, s => s
  | f + 1, pat, s =>
    match findSub s pat with
    | none => s
    | some p => s.take p ++ replaceAllFuel f pat (s.drop (p + pat.length))

/-- Rust `str::replace(pat, "")`: delete every non-overlapping occurrence of
`pat`, scanning left to right; text already emitted is never rescanned. -/
def replaceAll (pat s : List Char) : List Char :=
  replaceAllFuel (s.length + 1) pat s

/-- The six emphasis markers stripped by the parser (`srt.rs:55-60`), in the
order the source applies them. -/
def tagList : List (List Char) :=
  ["<i>".toList, "</i>".toList, "<b>".toList, "</b>".toList,
   "<u>".toList, "</u>".toList]

/-- The chained `.replace(tag, "")` calls of `srt.rs:55-60`, applied in source
order. -/
def stripTags (s : List Char) : List Char :=
  (tagList.foldl (fun acc tag => replaceAll tag acc) s)

/-- Rust `str::trim`: drop leading and trailing whitespace. -/
def trimChars (l : List Char) : List Char :=
  ((l.dropWhile Char.isWhitespace).reverse.dropWhile Char.isWhitespace).reverse

/-- Fuelled driver for `splitBlocks`, mirroring Rust `str::split` on a string
pattern: cut at each leftmost occurrence, continue after it. -/
def splitOnFuel : Nat → List Char → List Char → List (List Char)
  | 0, _, s => [s]
  | f + 1, sep, s =>
    match findSub s sep with
    | none => [s]
    | some p => s.take p :: splitOnFuel f sep (s.drop (p + sep.length))

/-- The literal two-character block separator of `srt.rs:18`. -/
def nlnl : List Char := ['\n', '\n']

/-- `content.split("\n\n")` of `srt.rs:18`. -/
def splitBlocks (s : List Char) : List (List Char) :=
  splitOnFuel (s.length + 1) nlnl s

/-- Strip one trailing carriage return, as Rust `lines()` does on a line that
was terminated by `\n`. -/
def stripCR (l : List Char) : List Char :=
  if l.getLast? = some '\r' then l.dropLast else l

/-- Fuelled driver for `rustLines`: cut at each `'\n'`, stripping a `'\r'`
that immediately preceded it; a final unterminated segment is kept verbatim
and a final terminated position yields no extra empty line. -/
def rustLinesFuel : Nat → List Char → List (List Char)
  | 0, s => if s = [] then [] else [s]
  | f + 1, s =>
    match findSub s ['\n'] with
    | none => if s = [] then [] else [s]
    | some p => stripCR (s.take p) :: rustLinesFuel f (s.drop (p + 1))

/-- Rust `str::lines` (`srt.rs:24`). -/
def rustLines (s : List Char) : List (List Char) :=
  rustLinesFuel (s.length + 1) s

/-- The eight digit-string captures of the timestamp regex of `srt.rs:21`. -/
structure TsCaps where
  c1 : List Char
  c2 : List Char
  c3 : List Char
  c4 : List Char
  c5 : List Char
  c6 : List Char
  c7 : List Char
  c8 : List Char
deriving DecidableEq, Repr

/-- Read exactly `n` digit characters, returning them and the rest. -/
def readDigits : Nat → List Char → Option (List Char × List Char)
  | 0, cs => some ([], cs)
  | n + 1, c :: rest =>
    if c.isDigit then (readDigits n rest).map (fun pr => (c :: pr.1, pr.2))
    else none
  | _ + 1, [] => none

/-- Expect a single literal character. -/
def expectChar (c : Char) : List Char → Option (List Char)
  | x :: rest => if x = c then some rest else none
  | [] => none

/-- One `HH:MM:SS[,.]mmm` timecode: the four digit captures and the rest. -/
def readTimecode (cs : List Char) :
    Option ((List Char × List Char × List Char × List Char) × List Char) := do
  let (h, r1) ← readDigits 2 cs
  let r2 ← expectChar ':' r1
  let (m, r3) ← readDigits 2 r2
  let r4 ← expectChar ':' r3
  let (s, r5) ← readDigits 2 r4
  match r5 with
  | sep :: r6 =>
    if sep = ',' ∨ sep = '.' then do
      let (ms, r7) ← readDigits 3 r6
      pure ((h, m, s, ms), r7)
    else none
  | [] => none

/-- The `\s*-->\s*` arrow token: greedy whitespace, the literal arrow, greedy
whitespace (the greedy runs are forced, since `\s` cannot match `'-'`). -/
def readArrow (cs : List Char) : Option (List Char) :=
  match cs.dropWhile Char.isWhitespace with
  | '-' :: '-' :: '>' :: rest => some (rest.dropWhile Char.isWhitespace)
  | _ => none

/-- Attempt the whole timestamp-pair pattern anchored at the head of `cs`. -/
def timePairAt (cs : List Char) : Option TsCaps := do
  let (q1, r1) ← readTimecode cs
  let r2 ← readArrow r1
  let (q2, _) ← readTimecode r2
  pure ⟨q1.1, q1.2.1, q1.2.2.1, q1.2.2.2, q2.1, q2.2.1, q2.2.2.1, q2.2.2.2⟩

/-- Unanchored leftmost regex search (`Regex::is_match` / `captures` of
`srt.rs:34,45`): try the pattern at each position, leftmost first. -/
def timeMatch (cs : List Char) : Option TsCaps :=
  match timePairAt cs with
  | some caps => some caps
  | none =>
    match cs with
    | [] => none
    | _ :: rest => timeMatch rest

/-- The scan of `srt.rs:33-39`: first line matching the timestamp pattern,
returning its captures and the index of the following line (`text_start`). -/
def findTs (i : Nat) : List (List Char) → Option (TsCaps × Nat)
  | [] => none
  | l :: rest =>
    match timeMatch l with
    | some caps => some (caps, i + 1)
    | none => findTs (i + 1) rest

/-- Value of a string of decimal digits (Rust `str::parse` on the regex's
digit captures, which never fails on them). -/
def digitsVal (l : List Char) : Nat :=
  l.foldl (fun a c => a * 10 + (c.toNat - 48)) 0

/-- `parse_srt_time` (`srt.rs:72-79`). -/
def srtTime (h m s ms : List Char) : ℚ :=
  (digitsVal h : ℚ) * 3600 + (digitsVal m : ℚ) * 60 + (digitsVal s : ℚ)
    + (digitsVal ms : ℚ) / 1000

/-- Join lines with single spaces (`lines[text_start..].join(" ")`). -/
def joinSpace : List (List Char) → List Char
  | [] => []
  | [l] => l
  | l :: ls => l ++ ' ' :: joinSpace ls

/-- Processing of one block (`srt.rs:23-67`): needs at least 3 lines, a
timestamp line, and non-empty stripped text. -/
def parseBlock (block : List Char) : Option SubtitleEntry :=
  let lines := rustLines block
  if lines.length < 3 then none
  else
    match findTs 0 lines with
    | none => none
    | some (caps, text_start) =>
      let text := trimChars (stripTags (joinSpace (lines.drop text_start)))
      if text = [] then none
      else some ⟨srtTime caps.c1 caps.c2 caps.c3 caps.c4,
                 srtTime caps.c5 caps.c6 caps.c7 caps.c8, text⟩

/-- `parse_srt` on file content (`srt.rs:13-70`); the `fs::read_to_string`
I/O step is outside the model. -/
def parseSRT (content : List Char) : List SubtitleEntry :=
  (splitBlocks content).filterMap parseBlock

/-- The three CLI padding options of `main.rs:94-103`. -/
structure PadOpts where
  pad : Option ℚ
  pad_before : Option ℚ
  pad_after : Option ℚ
deriving DecidableEq, Repr

/-- Errors of the dialogue-mode resolution in `main.rs:265-300`. -/
inductive ResolveErr where
  | notFound (q : List Char)
  | invalidRange
deriving DecidableEq, Repr

/-- Rust `f64::max` (`main.rs:292`), written with an explicit decidable
comparison so that concrete resolutions evaluate in the kernel. -/
def maxQ (a b : ℚ) : ℚ :=
  if a ≤ b then b else a

/-- The raw range computation of `main.rs:275-288`: resolve `--from` (and
`--to` when present), reject an inverted range, and pick the mode's default
padding (0.5 with `--to`, 2.0 without). -/
def resolveRaw (entries : List SubtitleEntry) (fromQ : List Char)
    (toQ : Option (List Char)) : Except ResolveErr (ℚ × ℚ × ℚ) :=
  match find_dialogue entries fromQ with
  | .error q => .error (.notFound q)
  | .ok fe =>
    match toQ with
    | some tq =>
      match find_dialogue entries tq with
      | .error q => .error (.notFound q)
      | .ok te =>
        if te.end_ < fe.start then .error .invalidRange
        else .ok (fe.start, te.end_, 1 / 2)
    | none => .ok (fe.start, fe.end_, 2)

/-- The padding application of `main.rs:290-293`:
`pad_before.or(pad).unwrap_or(default)` on each side, then
`(start - pad_before).max(0.0)` and `end + pad_after`. -/
def resolveDialogue (entries : List SubtitleEntry) (fromQ : List Char)
    (toQ : Option (List Char)) (opts : PadOpts) : Except ResolveErr (ℚ × ℚ) :=
  match resolveRaw entries fromQ toQ with
  | .error e => .error e
  | .ok (s, e, d) =>
    let pad_before := (opts.pad_before.or opts.pad).getD d
    let pad_after := (opts.pad_after.or opts.pad).getD d
    .ok (maxQ (s - pad_before) 0, e + pad_after)

deriving instance DecidableEq for Except

/-! ## Spec-side characterizations and proof-level helper definitions -/

/-- Spec-side padding ladder, following the spec's words: the explicit
per-side value if given, else the symmetric `pad` value if given, else the
mode default `d`. Compared against the code's `or`/`unwrap_or` chain. -/
def specPadValue (explicitSide symmetric : Option ℚ) (d : ℚ) : ℚ :=
  match explicitSide with
  | some v => v
  | none =>
    match symmetric with
    | some v => v
    | none => d

/-- Left-biased maximum of two optional scored entries (ties keep the left
argument); used to characterize the tier-3 fold. -/
def mergeBest :
    Option (SubtitleEntry × Nat) → Option (SubtitleEntry × Nat) →
      Option (SubtitleEntry × Nat)
  | none, b => b
  | some a, none => some a
  | some (a, ca), some (b, cb) => if ca < cb then some (b, cb) else some (a, ca)

/-- Recursive left-biased best-scoring entry (entries with score `0`
excluded); characterizes `bestFuzzy`. -/
def bestOf (ws : List (List Char)) : List SubtitleEntry → Option (SubtitleEntry × Nat)
  | [] => none
  | e :: rest =>
    mergeBest
      (if 0 < countWords ws (lowerL e.text) then
        some (e, countWords ws (lowerL e.text)) else none)
      (bestOf ws rest)

/-- Spec-side acceptance condition of the fuzzy tier for an entry `e`: `e`
occurs in the sequence with a positive word count that reaches the
`ws.length / 2` threshold, every earlier entry has a strictly smaller count
(so `e` is the first entry attaining the maximum), and no later entry
exceeds it. -/
def fuzzyAccepts (ws : List (List Char)) (entries : List SubtitleEntry)
    (e : SubtitleEntry) : Prop :=
  ∃ pre post, entries = pre ++ e :: post ∧
    0 < countWords ws (lowerL e.text) ∧
    ws.length / 2 ≤ countWords ws (lowerL e.text) ∧
    (∀ x ∈ pre, countWords ws (lowerL x.text) < countWords ws (lowerL e.text)) ∧
    (∀ x ∈ post, countWords ws (lowerL x.text) ≤ countWords ws (lowerL e.text))

/-- Spec-side ordered-occurrence condition with non-overlapping matches:
each word occurs starting at or after the end of the previous word's match.
This is the amended reading of the ordered-subsequence tier. -/
def orderedOcc : List (List Char) → List Char → Prop
  | [], _ => True
  | w :: ws, t => ∃ p, w.isPrefixOf (t.drop p) = true ∧ orderedOcc ws (t.drop (p + w.length))

/-- The claim's literal ordered-occurrence condition, allowing overlap: each
word occurs at a position at or after the position (not the end) of the
previous word's match. `k` is the lower bound for the next position. -/
def orderedOccLaxFrom : Nat → List (List Char) → List Char → Prop
  | _, [], _ => True
  | k, w :: ws, t => ∃ p, k ≤ p ∧ w.isPrefixOf (t.drop p) = true ∧ orderedOccLaxFrom p ws t

/-- Ordered occurrence with merely non-decreasing match positions (the
claim's literal wording for tier 2). -/
def orderedOccLax (ws : List (List Char)) (t : List Char) : Prop :=
  orderedOccLaxFrom 0 ws t

/-- Total milliseconds denoted by one timecode's digit captures; compares
exactly like `srtTime` (which equals `msVal / 1000` as a rational) but
evaluates in the kernel. -/
def msVal (h m s ms : List Char) : Nat :=
  digitsVal h * 3600000 + digitsVal m * 60000 + digitsVal s * 1000 + digitsVal ms

/-- Whether a block's matched timing line (if any) has its second timecode
at or after its first. -/
def capsOrdered : Option (TsCaps × Nat) → Bool
  | none => true
  | some (caps, _) =>
    decide (msVal caps.c1 caps.c2 caps.c3 caps.c4 ≤
      msVal caps.c5 caps.c6 caps.c7 caps.c8)

/-- A tag marker shape: starts with `'<'` and contains no further `'<'`. -/
def tagForm (t : List Char) : Prop :=
  ∃ rest, t = '<' :: rest ∧ '<' ∉ rest

/-- Every `'<'` in `s` begins an occurrence of one of the markers in `T`.
Under this condition a single stripping pass removes every marker. -/
def goodTags (T : List (List Char)) (s : List Char) : Prop :=
  ∀ i, i < s.length → (s.drop i).head? = some '<' →
    ∃ t ∈ T, t.isPrefixOf (s.drop i) = true

instance goodTagsDecidable (T : List (List Char)) (s : List Char) :
    Decidable (goodTags T s) :=
  inferInstanceAs (Decidable (∀ i, i < s.length → (s.drop i).head? = some '<' →
    ∃ t ∈ T, t.isPrefixOf (s.drop i) = true))

/-! ## Basic lemmas about the string primitives -/

lemma isPrefixOf_iff_ex : ∀ (p t : List Char), p.isPrefixOf t = true ↔ ∃ r, t = p ++ r
  | [], t => by simp [List.isPrefixOf]
  | a :: as, [] => by simp [List.isPrefixOf]
  | a :: as, b :: bs => by
    simp only [List.isPrefixOf, Bool.and_eq_true, beq_iff_eq]
    constructor
    · rintro ⟨rfl, h⟩
      obtain ⟨r, rfl⟩ := (isPrefixOf_iff_ex as bs).1 h
      exact ⟨r, rfl⟩
    · rintro ⟨r, hr⟩
      rw [List.cons_append] at hr
      injection hr with h1 h2
      exact ⟨h1.symm, (isPrefixOf_iff_ex as bs).2 ⟨r, h2⟩⟩

lemma isPrefixOf_length_le {p t : List Char} (h : p.isPrefixOf t = true) :
    p.length ≤ t.length := by
  obtain ⟨r, rfl⟩ := (isPrefixOf_iff_ex p t).1 h
  simp

lemma findSub_nil_pat (t : List Char) : findSub t [] = some 0 := by
  cases t <;> simp [findSub, List.isPrefixOf]

lemma findSub_eq_none_iff (t pat : List Char) :
    findSub t pat = none ↔ ∀ i, ¬ pat.isPrefixOf (t.drop i) = true := by
  induction t with
  | nil =>
    by_cases h : pat.isPrefixOf ([] : List Char) = true
    · simp [findSub, h]
    · simp [findSub, h]
  | cons c rest ih =>
    by_cases h : pat.isPrefixOf (c :: rest) = true
    · simp only [findSub, h, if_true]
      constructor
      · intro hc; exact absurd hc (by simp)
      · intro hall; exact absurd h (by simpa using hall 0)
    · have hb : pat.isPrefixOf (c :: rest) = false := by
        cases hpp : pat.isPrefixOf (c :: rest) with
        | false => rfl
        | true => exact absurd hpp h
      simp only [findSub, hb, Bool.false_eq_true, if_false, Option.map_eq_none']
      rw [ih]
      constructor
      · intro hall i
        cases i with
        | zero => simpa using h
        | succ j => simpa using hall j
      · intro hall i
        simpa using hall (i + 1)

lemma findSub_some_spec :
    ∀ (t pat : List Char) (p : Nat), findSub t pat = some p →
      pat.isPrefixOf (t.drop p) = true ∧
      (∀ q, q < p → ¬ pat.isPrefixOf (t.drop q) = true) ∧
      p + pat.length ≤ t.length := by
  intro t
  induction t with
  | nil =>
    intro pat p hp
    simp only [findSub] at hp
    by_cases h : pat.isPrefixOf ([] : List Char) = true
    · rw [if_pos h] at hp
      injection hp with hp0
      subst hp0
      exact ⟨h, by omega, by simpa using isPrefixOf_length_le h⟩
    · rw [if_neg h] at hp; exact absurd hp (by simp)
  | cons c rest ih =>
    intro pat p hp
    by_cases h : pat.isPrefixOf (c :: rest) = true
    · simp only [findSub, h, if_true] at hp
      injection hp with hp0
      subst hp0
      exact ⟨by simpa using h, by omega, by simpa using isPrefixOf_length_le h⟩
    · have hb : pat.isPrefixOf (c :: rest) = false := by
        cases hpp : pat.isPrefixOf (c :: rest) with
        | false => rfl
        | true => exact absurd hpp h
      simp only [findSub, hb, Bool.false_eq_true, if_false] at hp
      rcases Option.map_eq_some'.1 hp with ⟨q, hq, rfl⟩
      obtain ⟨h1, h2, h3⟩ := ih pat q hq
      refine ⟨by simpa using h1, ?_, by simp only [List.length_cons]; omega⟩
      intro q' hq'
      cases q' with
      | zero => simpa using h
      | succ j => simpa using h2 j (by omega)

lemma findSub_isSome_of_ex {t pat : List Char} {i : Nat}
    (h : pat.isPrefixOf (t.drop i) = true) : ∃ p, findSub t pat = some p := by
  cases hf : findSub t pat with
  | none => exact absurd h ((findSub_eq_none_iff t pat).1 hf i)
  | some p => exact ⟨p, rfl⟩

lemma findSub_le_of_ex {t pat : List Char} {i p : Nat}
    (h : pat.isPrefixOf (t.drop i) = true) (hf : findSub t pat = some p) :
    p ≤ i := by
  by_contra hlt
  exact (findSub_some_spec t pat p hf).2.1 i (by omega) h

lemma containsSub_iff (t pat : List Char) :
    containsSub t pat = true ↔ ∃ u v, t = u ++ pat ++ v := by
  constructor
  · intro h
    rw [containsSub, Option.isSome_iff_exists] at h
    obtain ⟨p, hp⟩ := h
    obtain ⟨h1, -, -⟩ := findSub_some_spec t pat p hp
    obtain ⟨r, hr⟩ := (isPrefixOf_iff_ex pat (t.drop p)).1 h1
    exact ⟨t.take p, r, by rw [List.append_assoc, ← hr, List.take_append_drop]⟩
  · rintro ⟨u, v, rfl⟩
    have hpre : pat.isPrefixOf ((u ++ pat ++ v).drop u.length) = true := by
      rw [List.append_assoc, List.drop_left]
      exact (isPrefixOf_iff_ex pat (pat ++ v)).2 ⟨v, rfl⟩
    obtain ⟨p, hp⟩ := findSub_isSome_of_ex hpre
    rw [containsSub, hp]
    rfl

lemma containsSub_nil (t : List Char) : containsSub t [] = true := by
  simp [containsSub, findSub_nil_pat]

lemma find?_eq_some_decomp {α : Type} (p : α → Bool) :
    ∀ (l : List α) (e : α), l.find? p = some e →
      ∃ pre post, l = pre ++ e :: post ∧ (∀ x ∈ pre, ¬ p x = true) ∧ p e = true := by
  intro l
  induction l with
  | nil => intro e h; exact absurd h (by simp)
  | cons a rest ih =>
    intro e h
    by_cases ha : p a = true
    · rw [List.find?_cons_of_pos _ ha] at h
      injection h with h0
      subst h0
      exact ⟨[], rest, rfl, by simp, ha⟩
    · rw [List.find?_cons_of_neg _ (by simpa using ha)] at h
      obtain ⟨pre, post, rfl, hpre, he⟩ := ih e h
      refine ⟨a :: pre, post, rfl, ?_, he⟩
      intro x hx
      rcases List.mem_cons.1 hx with rfl | hx
      · exact ha
      · exact hpre x hx

lemma find?_isSome_of_ex {α : Type} {p : α → Bool} {l : List α} {e : α}
    (he : e ∈ l) (hp : p e = true) : ∃ x, l.find? p = some x := by
  cases hf : l.find? p with
  | none => exact absurd hp (by simpa using List.find?_eq_none.1 hf e he)
  | some x => exact ⟨x, rfl⟩

/-! ## C1: the exact-substring tier always wins when present -/

/-- C1: when at least one entry's lowercased text contains the lowercased
query as a contiguous substring, `find_dialogue` returns the first such
entry in sequence order (no condition is placed on earlier entries, so an
earlier entry satisfying only a weaker tier cannot pre-empt it). -/
theorem exact_substring_tier_wins (entries : List SubtitleEntry) (query : List Char)
    (h : ∃ e ∈ entries, ∃ u v, lowerL e.text = u ++ lowerL query ++ v) :
    ∃ pre e post, entries = pre ++ e :: post ∧
      (∀ e' ∈ pre, ¬ ∃ u v, lowerL e'.text = u ++ lowerL query ++ v) ∧
      (∃ u v, lowerL e.text = u ++ lowerL query ++ v) ∧
      find_dialogue entries query = .ok e := by
  obtain ⟨e0, he0, hsub⟩ := h
  have hp : containsSub (lowerL e0.text) (lowerL query) = true :=
    (containsSub_iff _ _).2 hsub
  obtain ⟨e, hfind⟩ :=
    find?_isSome_of_ex (p := fun e => containsSub (lowerL e.text) (lowerL query)) he0 hp
  obtain ⟨pre, post, hdec, hpre, hpe⟩ := find?_eq_some_decomp _ entries e hfind
  refine ⟨pre, e, post, hdec, ?_, (containsSub_iff _ _).1 hpe, ?_⟩
  · intro e' he' hex
    exact hpre e' he' ((containsSub_iff _ _).2 hex)
  · simp only [find_dialogue, hfind]

/-- Witness for C1 at a concrete input. -/
theorem exact_substring_tier_wins_witness :
    (∃ e ∈ [(⟨0, 1, "ab".toList⟩ : SubtitleEntry), ⟨2, 3, "xaby".toList⟩],
        ∃ u v, lowerL e.text = u ++ lowerL "AB".toList ++ v) ∧
      ∃ pre e post,
        [(⟨0, 1, "ab".toList⟩ : SubtitleEntry), ⟨2, 3, "xaby".toList⟩] = pre ++ e :: post ∧
        (∀ e' ∈ pre, ¬ ∃ u v, lowerL e'.text = u ++ lowerL "AB".toList ++ v) ∧
        (∃ u v, lowerL e.text = u ++ lowerL "AB".toList ++ v) ∧
        find_dialogue [(⟨0, 1, "ab".toList⟩ : SubtitleEntry), ⟨2, 3, "xaby".toList⟩]
          "AB".toList = .ok e :=
  ⟨⟨⟨0, 1, "ab".toList⟩, by simp, [], [], by decide⟩,
   exact_substring_tier_wins _ _ ⟨⟨0, 1, "ab".toList⟩, by simp, [], [], by decide⟩⟩

/-! ## C9: the empty query hits the exact-substring tier on the first entry -/

/-- C9: on any non-empty entry sequence the empty query succeeds via the
exact-substring tier (every string contains the empty substring) and returns
the first entry; it does not fail. -/
theorem empty_query_returns_first (e : SubtitleEntry) (rest : List SubtitleEntry) :
    find_dialogue (e :: rest) [] = .ok e := by
  have hf : List.find?
      (fun x : SubtitleEntry => containsSub (lowerL x.text) (lowerL ([] : List Char)))
      (e :: rest) = some e := by
    have h0 : lowerL ([] : List Char) = [] := rfl
    simp [List.find?, h0, containsSub_nil]
  simp only [find_dialogue, hf]

/-! ## Padding and range resolution (C4, C5, C6) -/

lemma maxQ_eq_max (a b : ℚ) : maxQ a b = max a b := by
  rw [maxQ]
  split_ifs with h
  · exact (max_eq_right h).symm
  · exact (max_eq_left (le_of_not_le h)).symm

lemma getD_or_eq_spec (ex sy : Option ℚ) (d : ℚ) :
    (ex.or sy).getD d = specPadValue ex sy d := by
  cases ex <;> cases sy <;> rfl

/-- C4: on every successful resolution the padded range is
`(max 0 (start - pad_before), end + pad_after)`, where each side's padding
is the explicit per-side value if given, else the symmetric `pad` if given,
else the mode default (2 in single-quote mode, 1/2 in range mode); a
negative padded start is clamped to exactly 0 by the `max`. -/
theorem padding_formula (entries : List SubtitleEntry) (fq tq : List Char)
    (fe te : SubtitleEntry) (o : PadOpts)
    (hf : find_dialogue entries fq = .ok fe)
    (ht : find_dialogue entries tq = .ok te)
    (hord : ¬ te.end_ < fe.start) :
    (∀ ex sy : Option ℚ, ∀ d : ℚ, (ex.or sy).getD d = specPadValue ex sy d) ∧
    resolveDialogue entries fq none o =
      .ok (max 0 (fe.start - specPadValue o.pad_before o.pad 2),
        fe.end_ + specPadValue o.pad_after o.pad 2) ∧
    resolveDialogue entries fq (some tq) o =
      .ok (max 0 (fe.start - specPadValue o.pad_before o.pad (1 / 2)),
        te.end_ + specPadValue o.pad_after o.pad (1 / 2)) := by
  refine ⟨getD_or_eq_spec, ?_, ?_⟩
  · simp only [resolveDialogue, resolveRaw, hf, getD_or_eq_spec]
    rw [maxQ_eq_max, max_comm]
  · simp only [resolveDialogue, resolveRaw, hf, ht, if_neg hord, getD_or_eq_spec]
    rw [maxQ_eq_max, max_comm]

/-- Witness for C4 at a concrete input. -/
theorem padding_formula_witness :
    find_dialogue [(⟨10, 12, "hello".toList⟩ : SubtitleEntry), ⟨20, 21, "bye".toList⟩]
        "hello".toList = .ok ⟨10, 12, "hello".toList⟩ ∧
    find_dialogue [(⟨10, 12, "hello".toList⟩ : SubtitleEntry), ⟨20, 21, "bye".toList⟩]
        "bye".toList = .ok ⟨20, 21, "bye".toList⟩ ∧
    ¬ (⟨20, 21, "bye".toList⟩ : SubtitleEntry).end_ <
        (⟨10, 12, "hello".toList⟩ : SubtitleEntry).start ∧
    ((∀ ex sy : Option ℚ, ∀ d : ℚ, (ex.or sy).getD d = specPadValue ex sy d) ∧
    resolveDialogue [(⟨10, 12, "hello".toList⟩ : SubtitleEntry), ⟨20, 21, "bye".toList⟩]
        "hello".toList none ⟨some 1, none, some 3⟩ =
      .ok (max 0 ((⟨10, 12, "hello".toList⟩ : SubtitleEntry).start -
          specPadValue (none : Option ℚ) (some 1) 2),
        (⟨10, 12, "hello".toList⟩ : SubtitleEntry).end_ + specPadValue (some 3) (some 1) 2) ∧
    resolveDialogue [(⟨10, 12, "hello".toList⟩ : SubtitleEntry), ⟨20, 21, "bye".toList⟩]
        "hello".toList (some "bye".toList) ⟨some 1, none, some 3⟩ =
      .ok (max 0 ((⟨10, 12, "hello".toList⟩ : SubtitleEntry).start -
          specPadValue (none : Option ℚ) (some 1) (1 / 2)),
        (⟨20, 21, "bye".toList⟩ : SubtitleEntry).end_ +
          specPadValue (some 3) (some 1) (1 / 2))) :=
  ⟨by decide, by decide, by decide,
    padding_formula _ _ _ _ _ ⟨some 1, none, some 3⟩ (by decide) (by decide) (by decide)⟩

/-- C5: with both range-mode queries resolved, the resolution fails with the
inverted-range error exactly when the `to` entry's end is strictly before
the `from` entry's start, and otherwise succeeds with the range
`[from.start, to.end]` (the queries are never swapped). -/
theorem range_inversion_check (entries : List SubtitleEntry) (fq tq : List Char)
    (fe te : SubtitleEntry)
    (hf : find_dialogue entries fq = .ok fe)
    (ht : find_dialogue entries tq = .ok te) :
    (resolveRaw entries fq (some tq) = .error .invalidRange ↔ te.end_ < fe.start) ∧
    (¬ te.end_ < fe.start →
      resolveRaw entries fq (some tq) = .ok (fe.start, te.end_, 1 / 2)) := by
  constructor
  · by_cases hord : te.end_ < fe.start
    · simp [resolveRaw, hf, ht, hord]
    · simp [resolveRaw, hf, ht, hord]
  · intro hord
    simp [resolveRaw, hf, ht, hord]

/-- Witness for C5 at a concrete input (an inverted pair and its error). -/
theorem range_inversion_check_witness :
    find_dialogue [(⟨10, 12, "hello".toList⟩ : SubtitleEntry), ⟨2, 3, "bye".toList⟩]
        "hello".toList = .ok ⟨10, 12, "hello".toList⟩ ∧
    find_dialogue [(⟨10, 12, "hello".toList⟩ : SubtitleEntry), ⟨2, 3, "bye".toList⟩]
        "bye".toList = .ok ⟨2, 3, "bye".toList⟩ ∧
    ((resolveRaw [(⟨10, 12, "hello".toList⟩ : SubtitleEntry), ⟨2, 3, "bye".toList⟩]
        "hello".toList (some "bye".toList) = .error .invalidRange ↔
      (⟨2, 3, "bye".toList⟩ : SubtitleEntry).end_ <
        (⟨10, 12, "hello".toList⟩ : SubtitleEntry).start) ∧
    (¬ (⟨2, 3, "bye".toList⟩ : SubtitleEntry).end_ <
        (⟨10, 12, "hello".toList⟩ : SubtitleEntry).start →
      resolveRaw [(⟨10, 12, "hello".toList⟩ : SubtitleEntry), ⟨2, 3, "bye".toList⟩]
        "hello".toList (some "bye".toList) =
        .ok ((⟨10, 12, "hello".toList⟩ : SubtitleEntry).start,
          (⟨2, 3, "bye".toList⟩ : SubtitleEntry).end_, 1 / 2))) :=
  ⟨by decide, by decide, range_inversion_check _ _ _ _ _ (by decide) (by decide)⟩

lemma fuzzyStep_cases (ws : List (List Char)) (acc : Option (SubtitleEntry × Nat))
    (e : SubtitleEntry) :
    fuzzyStep ws acc e = acc ∨ ∃ c, fuzzyStep ws acc e = some (e, c) := by
  by_cases hm : 0 < countWords ws (lowerL e.text)
  · cases acc with
    | none => exact Or.inr ⟨countWords ws (lowerL e.text), by simp [fuzzyStep, hm]⟩
    | some pr =>
      obtain ⟨be, bc⟩ := pr
      by_cases hlt : bc < countWords ws (lowerL e.text)
      · exact Or.inr ⟨countWords ws (lowerL e.text), by simp [fuzzyStep, hm, hlt]⟩
      · exact Or.inl (by simp [fuzzyStep, hm, hlt])
  · exact Or.inl (by simp [fuzzyStep, hm])

lemma foldl_fuzzyStep_mem (ws : List (List Char)) :
    ∀ (l : List SubtitleEntry) (acc : Option (SubtitleEntry × Nat))
      (e : SubtitleEntry) (c : Nat),
      l.foldl (fuzzyStep ws) acc = some (e, c) → acc = some (e, c) ∨ e ∈ l := by
  intro l
  induction l with
  | nil => intro acc e c h; exact Or.inl h
  | cons a rest ih =>
    intro acc e c h
    rcases ih (fuzzyStep ws acc a) e c h with hstep | hmem
    · rcases fuzzyStep_cases ws acc a with heq | ⟨c', heq⟩
      · exact Or.inl (heq ▸ hstep)
      · rw [heq] at hstep
        injection hstep with h1
        injection h1 with h2 h3
        exact Or.inr (by simp [h2.symm])
    · exact Or.inr (List.mem_cons_of_mem a hmem)

lemma bestFuzzy_mem {ws : List (List Char)} {entries : List SubtitleEntry}
    {e : SubtitleEntry} {c : Nat} (h : bestFuzzy ws entries = some (e, c)) :
    e ∈ entries := by
  rcases foldl_fuzzyStep_mem ws entries none e c h with hacc | hmem
  · exact absurd hacc (by simp)
  · exact hmem

lemma find_dialogue_mem {entries : List SubtitleEntry} {q : List Char}
    {e : SubtitleEntry} (h : find_dialogue entries q = .ok e) : e ∈ entries := by
  simp only [find_dialogue] at h
  cases hf1 : entries.find? (fun x => containsSub (lowerL x.text) (lowerL q)) with
  | some e1 =>
    rw [hf1] at h
    injection h with h1
    exact h1 ▸ List.mem_of_find?_eq_some hf1
  | none =>
    rw [hf1] at h
    cases hf2 : entries.find?
        (fun x => wordsInOrder (splitWS (lowerL q)) (lowerL x.text)) with
    | some e2 =>
      rw [hf2] at h
      injection h with h1
      exact h1 ▸ List.mem_of_find?_eq_some hf2
    | none =>
      rw [hf2] at h
      cases hbf : bestFuzzy (splitWS (lowerL q)) entries with
      | some pr =>
        obtain ⟨e3, c3⟩ := pr
        rw [hbf] at h
        dsimp only at h
        by_cases hth : (splitWS (lowerL q)).length / 2 ≤ c3
        · rw [if_pos hth] at h
          injection h with h1
          exact h1 ▸ bestFuzzy_mem hbf
        · rw [if_neg hth] at h
          exact absurd h (by simp)
      | none =>
        rw [hbf] at h
        exact absurd h (by simp)

lemma resolveRaw_ok {entries : List SubtitleEntry} {fq : List Char}
    {tq : Option (List Char)} {s e d : ℚ}
    (h : resolveRaw entries fq tq = .ok (s, e, d)) :
    d = (if tq.isSome then (1 : ℚ) / 2 else 2) ∧
    ∃ fe, find_dialogue entries fq = .ok fe ∧ s = fe.start ∧
      ((tq = none ∧ e = fe.end_) ∨
        (∃ tq' te, tq = some tq' ∧ find_dialogue entries tq' = .ok te ∧
          e = te.end_ ∧ fe.start ≤ te.end_)) := by
  unfold resolveRaw at h
  cases hf : find_dialogue entries fq with
  | error q => rw [hf] at h; exact absurd h (by simp)
  | ok fe =>
    rw [hf] at h
    cases tq with
    | none =>
      simp only at h
      injection h with h1
      injection h1 with h2 h3
      injection h3 with h4 h5
      exact ⟨by simp [h5.symm], fe, rfl, h2.symm, Or.inl ⟨rfl, h4.symm⟩⟩
    | some tq' =>
      simp only at h
      cases ht : find_dialogue entries tq' with
      | error q => rw [ht] at h; exact absurd h (by simp)
      | ok te =>
        rw [ht] at h
        dsimp only at h
        by_cases hord : te.end_ < fe.start
        · rw [if_pos hord] at h
          exact absurd h (by simp)
        · rw [if_neg hord] at h
          injection h with h1
          injection h1 with h2 h3
          injection h3 with h4 h5
          exact ⟨by simp [h5.symm], fe, rfl, h2.symm,
            Or.inr ⟨tq', te, rfl, ht, h4.symm, by simpa using hord⟩⟩

/-- C6 counterexample: the invariant `end > start` does not hold for every
choice of padding options; a negative `pad_after` produces a successful
resolution with a degenerate range. -/
theorem resolved_range_invariant_cex :
    ¬ (∀ (entries : List SubtitleEntry) (fq : List Char) (tq : Option (List Char))
        (o : PadOpts) (r : ℚ × ℚ),
        resolveDialogue entries fq tq o = .ok r → 0 ≤ r.1 ∧ r.1 < r.2) := by
  intro h
  have hres : resolveDialogue [⟨0, 1, "hello".toList⟩] "hello".toList none
      ⟨none, some 0, some (-1)⟩ = .ok (maxQ ((0 : ℚ) - 0) 0, (1 : ℚ) + (-1)) := rfl
  have hc := h [⟨0, 1, "hello".toList⟩] "hello".toList none
    ⟨none, some 0, some (-1)⟩ (maxQ ((0 : ℚ) - 0) 0, (1 : ℚ) + (-1)) hres
  have h1 : maxQ ((0 : ℚ) - 0) 0 = 0 := by rw [maxQ]; norm_num
  have h2 : (1 : ℚ) + (-1) = 0 := by norm_num
  rw [h1, h2] at hc
  exact absurd hc.2 (lt_irrefl 0)

/-- C6 amended: every successful resolution has a non-negative padded start
unconditionally (the `max` with 0 clamps it), and `end > start` holds
whenever the entries are well-formed (`0 ≤ start ≤ end`), the effective
before-padding is non-negative and the effective after-padding is positive
(both mode defaults satisfy this). -/
theorem resolved_range_invariant (entries : List SubtitleEntry) (fq : List Char)
    (tq : Option (List Char)) (o : PadOpts) (r : ℚ × ℚ)
    (hok : resolveDialogue entries fq tq o = .ok r) :
    0 ≤ r.1 ∧
    ((∀ x ∈ entries, 0 ≤ x.start ∧ x.start ≤ x.end_) →
      0 ≤ (o.pad_before.or o.pad).getD (if tq.isSome then 1 / 2 else 2) →
      0 < (o.pad_after.or o.pad).getD (if tq.isSome then 1 / 2 else 2) →
      r.1 < r.2) := by
  unfold resolveDialogue at hok
  cases hraw : resolveRaw entries fq tq with
  | error err => rw [hraw] at hok; exact absurd hok (by simp)
  | ok sed =>
    obtain ⟨s, e, d⟩ := sed
    rw [hraw] at hok
    simp only at hok
    injection hok with h1
    obtain ⟨hd, fe, hf, hs, hcase⟩ := resolveRaw_ok hraw
    rw [← h1, maxQ_eq_max]
    subst hd
    constructor
    · simp [le_max_iff]
    · intro hwf hpb hpa
      have hfe := hwf fe (find_dialogue_mem hf)
      have hse : 0 ≤ s ∧ s ≤ e := by
        rcases hcase with ⟨-, he⟩ | ⟨tq', te, -, ht, he, hord⟩
        · exact ⟨hs ▸ hfe.1, by rw [hs, he]; exact hfe.2⟩
        · exact ⟨hs ▸ hfe.1, by rw [hs, he]; exact hord⟩
      have hub : s - (o.pad_before.or o.pad).getD (if tq.isSome then 1 / 2 else 2) <
          e + (o.pad_after.or o.pad).getD (if tq.isSome then 1 / 2 else 2) := by
        have := hse.1
        have := hse.2
        linarith
      have h0 : (0 : ℚ) < e + (o.pad_after.or o.pad).getD (if tq.isSome then 1 / 2 else 2) := by
        have := hse.1
        have := hse.2
        linarith
      exact max_lt hub h0

/-- Witness for the amended C6 at a concrete input. -/
theorem resolved_range_invariant_witness :
    resolveDialogue [(⟨10, 12, "hello".toList⟩ : SubtitleEntry)] "hello".toList none
        ⟨none, none, none⟩ = .ok (maxQ ((10 : ℚ) - 2) 0, (12 : ℚ) + 2) ∧
    (0 ≤ (maxQ ((10 : ℚ) - 2) 0, (12 : ℚ) + 2).1 ∧
      ((∀ x ∈ [(⟨10, 12, "hello".toList⟩ : SubtitleEntry)],
          0 ≤ x.start ∧ x.start ≤ x.end_) →
        0 ≤ ((⟨none, none, none⟩ : PadOpts).pad_before.or
            (⟨none, none, none⟩ : PadOpts).pad).getD
            (if (none : Option (List Char)).isSome then 1 / 2 else 2) →
        0 < ((⟨none, none, none⟩ : PadOpts).pad_after.or
            (⟨none, none, none⟩ : PadOpts).pad).getD
            (if (none : Option (List Char)).isSome then 1 / 2 else 2) →
        (maxQ ((10 : ℚ) - 2) 0, (12 : ℚ) + 2).1 <
          (maxQ ((10 : ℚ) - 2) 0, (12 : ℚ) + 2).2)) :=
  ⟨rfl, resolved_range_invariant [⟨10, 12, "hello".toList⟩] "hello".toList none
    ⟨none, none, none⟩ (maxQ ((10 : ℚ) - 2) 0, (12 : ℚ) + 2) rfl⟩

/-! ## Parser timing (C7) and CRLF block splitting (C10) -/

lemma srtTime_eval (h m s ms : List Char) :
    srtTime h m s ms = (msVal h m s ms : ℚ) / 1000 := by
  unfold srtTime msVal
  push_cast
  ring

lemma srtTime_le_of_msVal {a b c d a' b' c' d' : List Char}
    (h : msVal a b c d ≤ msVal a' b' c' d') :
    srtTime a b c d ≤ srtTime a' b' c' d' := by
  rw [srtTime_eval, srtTime_eval]
  exact (div_le_div_iff_of_pos_right (by norm_num)).2 (by exact_mod_cast h)

/-- C7 counterexample: the parser copies the two timecodes without checking
their order, so an inverted timing line yields an entry with `end < start`. -/
theorem parse_end_ge_start_cex :
    ¬ (∀ (content : List Char) (e : SubtitleEntry),
        e ∈ parseSRT content → e.start ≤ e.end_) := by
  intro h
  have hp : parseSRT ("x\n00:00:02,000 --> 00:00:01,000\nhello".toList) =
      [⟨srtTime "00".toList "00".toList "02".toList "000".toList,
        srtTime "00".toList "00".toList "01".toList "000".toList, "hello".toList⟩] := rfl
  have hmem : (⟨srtTime "00".toList "00".toList "02".toList "000".toList,
      srtTime "00".toList "00".toList "01".toList "000".toList,
      "hello".toList⟩ : SubtitleEntry) ∈
      parseSRT ("x\n00:00:02,000 --> 00:00:01,000\nhello".toList) :=
    hp.symm ▸ List.mem_singleton_self _
  have hle := h _ _ hmem
  simp only [srtTime_eval] at hle
  have h1 : msVal "00".toList "00".toList "02".toList "000".toList = 2000 := rfl
  have h2 : msVal "00".toList "00".toList "01".toList "000".toList = 1000 := rfl
  rw [h1, h2] at hle
  norm_num at hle

/-- C7 amended: the parser does not enforce `end ≥ start`; every produced
entry satisfies `end ≥ start` provided every block's matched timing line has
its second timecode at or after its first. -/
theorem parse_end_ge_start (content : List Char)
    (h : ∀ b ∈ splitBlocks content, capsOrdered (findTs 0 (rustLines b)) = true) :
    ∀ e ∈ parseSRT content, e.start ≤ e.end_ := by
  intro e he
  obtain ⟨b, hb, hpb⟩ := List.mem_filterMap.1 he
  have hcap := h b hb
  simp only [parseBlock] at hpb
  by_cases hlen : (rustLines b).length < 3
  · rw [if_pos hlen] at hpb; exact absurd hpb (by simp)
  · rw [if_neg hlen] at hpb
    cases hts : findTs 0 (rustLines b) with
    | none => rw [hts] at hpb; exact absurd hpb (by simp)
    | some pr =>
      obtain ⟨caps, ts⟩ := pr
      rw [hts] at hpb
      dsimp only at hpb
      rw [hts] at hcap
      have hms : msVal caps.c1 caps.c2 caps.c3 caps.c4 ≤
          msVal caps.c5 caps.c6 caps.c7 caps.c8 :=
        of_decide_eq_true (by simpa [capsOrdered] using hcap)
      by_cases htxt : trimChars (stripTags (joinSpace ((rustLines b).drop ts))) = []
      · rw [if_pos htxt] at hpb; exact absurd hpb (by simp)
      · rw [if_neg htxt] at hpb
        injection hpb with h1
        rw [← h1]
        exact srtTime_le_of_msVal hms

/-- Witness for the amended C7 at a concrete input. -/
theorem parse_end_ge_start_witness :
    (∀ b ∈ splitBlocks ("1\n00:00:01,000 --> 00:00:02,000\nHi".toList),
      capsOrdered (findTs 0 (rustLines b)) = true) ∧
    (∀ e ∈ parseSRT ("1\n00:00:01,000 --> 00:00:02,000\nHi".toList),
      e.start ≤ e.end_) :=
  ⟨by decide, parse_end_ge_start _ (by decide)⟩

/-- C10 counterexample: the text of the single entry produced from an
all-CRLF input is not the raw space-join of the lines after the timing
line; the parser additionally tag-strips and trims it (here a trailing
space produced by the final blank line is trimmed away). -/
theorem crlf_single_block_cex :
    ¬ (∀ content : List Char, findSub content nlnl = none →
        ∀ e ∈ parseSRT content, ∀ caps ts,
          findTs 0 (rustLines content) = some (caps, ts) →
          e.text = joinSpace ((rustLines content).drop ts)) := by
  intro h
  have hp : parseSRT ("1\r\n00:00:01,000 --> 00:00:02,000\r\nHi\r\n\r\n".toList) =
      [⟨srtTime "00".toList "00".toList "01".toList "000".toList,
        srtTime "00".toList "00".toList "02".toList "000".toList, "Hi".toList⟩] := rfl
  have hmem : (⟨srtTime "00".toList "00".toList "01".toList "000".toList,
      srtTime "00".toList "00".toList "02".toList "000".toList,
      "Hi".toList⟩ : SubtitleEntry) ∈
      parseSRT ("1\r\n00:00:01,000 --> 00:00:02,000\r\nHi\r\n\r\n".toList) :=
    hp.symm ▸ List.mem_singleton_self _
  have heq := h ("1\r\n00:00:01,000 --> 00:00:02,000\r\nHi\r\n\r\n".toList) (by decide)
    _ hmem ⟨"00".toList, "00".toList, "01".toList, "000".toList,
      "00".toList, "00".toList, "02".toList, "000".toList⟩ 2 (by decide)
  exact absurd heq (by decide)

/-- C10 amended: with no `"\n\n"` in the input (as in an all-CRLF file) the
whole content is a single block, the parser produces at most one entry, and
that entry's text is the space-join of all lines after the first
timestamp-pattern line, tag-stripped and whitespace-trimmed. -/
theorem crlf_single_block (content : List Char)
    (h : findSub content nlnl = none) :
    parseSRT content = (parseBlock content).toList ∧
    (parseSRT content).length ≤ 1 ∧
    ∀ e ∈ parseSRT content, ∃ caps ts,
      findTs 0 (rustLines content) = some (caps, ts) ∧
      e.text = trimChars (stripTags (joinSpace ((rustLines content).drop ts))) := by
  have hsplit : splitBlocks content = [content] := by
    simp [splitBlocks, splitOnFuel, h]
  have hps : parseSRT content = (parseBlock content).toList := by
    rw [parseSRT, hsplit]
    cases hpb : parseBlock content <;>
      simp [List.filterMap_cons, List.filterMap_nil, hpb]
  refine ⟨hps, ?_, ?_⟩
  · rw [hps]
    cases parseBlock content <;> simp
  · intro e he
    rw [hps] at he
    have hpb : parseBlock content = some e := by
      cases hpo : parseBlock content with
      | none => rw [hpo] at he; exact absurd he (by simp)
      | some e' =>
        rw [hpo] at he
        simp only [Option.toList_some, List.mem_singleton] at he
        exact congrArg some he.symm
    simp only [parseBlock] at hpb
    by_cases hlen : (rustLines content).length < 3
    · rw [if_pos hlen] at hpb; exact absurd hpb (by simp)
    · rw [if_neg hlen] at hpb
      cases hts : findTs 0 (rustLines content) with
      | none => rw [hts] at hpb; exact absurd hpb (by simp)
      | some pr =>
        obtain ⟨caps, ts⟩ := pr
        rw [hts] at hpb
        dsimp only at hpb
        by_cases htxt : trimChars (stripTags (joinSpace ((rustLines content).drop ts))) = []
        · rw [if_pos htxt] at hpb; exact absurd hpb (by simp)
        · rw [if_neg htxt] at hpb
          injection hpb with h1
          exact ⟨caps, ts, rfl, by rw [← h1]⟩

/-- Witness for the amended C10 at a concrete all-CRLF input. -/
theorem crlf_single_block_witness :
    findSub ("1\r\n00:00:01,000 --> 00:00:02,000\r\nHi\r\n".toList) nlnl = none ∧
    (parseSRT ("1\r\n00:00:01,000 --> 00:00:02,000\r\nHi\r\n".toList) =
        (parseBlock ("1\r\n00:00:01,000 --> 00:00:02,000\r\nHi\r\n".toList)).toList ∧
      (parseSRT ("1\r\n00:00:01,000 --> 00:00:02,000\r\nHi\r\n".toList)).length ≤ 1 ∧
      ∀ e ∈ parseSRT ("1\r\n00:00:01,000 --> 00:00:02,000\r\nHi\r\n".toList),
        ∃ caps ts,
          findTs 0 (rustLines ("1\r\n00:00:01,000 --> 00:00:02,000\r\nHi\r\n".toList)) =
            some (caps, ts) ∧
          e.text = trimChars (stripTags (joinSpace
            ((rustLines ("1\r\n00:00:01,000 --> 00:00:02,000\r\nHi\r\n".toList)).drop ts)))) :=
  ⟨by decide, crlf_single_block _ (by decide)⟩

/-! ## The ordered word-subsequence tier (C3) -/

lemma orderedOcc_of_drop :
    ∀ (ws : List (List Char)) (t : List Char) (d : Nat),
      orderedOcc ws (t.drop d) → orderedOcc ws t := by
  intro ws
  induction ws with
  | nil => intro t d h; trivial
  | cons w ws ih =>
    intro t d h
    obtain ⟨p, hpre, hrest⟩ := h
    have hdd : (t.drop d).drop p = t.drop (d + p) := by
      rw [List.drop_drop, Nat.add_comm]
    have hdd2 : (t.drop d).drop (p + w.length) = t.drop (d + p + w.length) := by
      rw [List.drop_drop]
      congr 1
      omega
    refine ⟨d + p, ?_, ?_⟩
    · rw [← hdd]; exact hpre
    · exact hdd2 ▸ hrest

lemma wordsInOrder_iff_orderedOcc :
    ∀ (ws : List (List Char)) (t : List Char),
      wordsInOrder ws t = true ↔ orderedOcc ws t := by
  intro ws
  induction ws with
  | nil => intro t; simp [wordsInOrder, orderedOcc]
  | cons w ws ih =>
    intro t
    constructor
    · intro h
      rw [wordsInOrder] at h
      cases hf : findSub t w with
      | none => rw [hf] at h; exact absurd h (by simp)
      | some p =>
        rw [hf] at h
        exact ⟨p, (findSub_some_spec t w p hf).1, (ih _).1 h⟩
    · rintro ⟨p, hpre, hrest⟩
      obtain ⟨p0, hp0⟩ := findSub_isSome_of_ex hpre
      have hle : p0 ≤ p := findSub_le_of_ex hpre hp0
      rw [wordsInOrder, hp0]
      apply (ih _).2
      have hdd : (t.drop (p0 + w.length)).drop (p - p0) = t.drop (p + w.length) := by
        rw [List.drop_drop]
        congr 1
        omega
      exact orderedOcc_of_drop ws _ (p - p0) (hdd.symm ▸ hrest)

/-- C3 counterexample: with overlap allowed (positions merely non-decreasing,
the claim's literal wording) the first entry of `["ab", "ab  b"]` satisfies
the ordered condition for query `"ab b"`, yet `find_dialogue` skips it and
returns the second entry, because the code resumes each search after the
end of the previous match. -/
theorem ordered_subsequence_tier_cex :
    ¬ (∀ (entries : List SubtitleEntry) (query : List Char),
        (∀ e ∈ entries, containsSub (lowerL e.text) (lowerL query) = false) →
        ∀ pre e post, entries = pre ++ e :: post →
          (∀ x ∈ pre, ¬ orderedOccLax (splitWS (lowerL query)) (lowerL x.text)) →
          orderedOccLax (splitWS (lowerL query)) (lowerL e.text) →
          find_dialogue entries query = .ok e) := by
  intro h
  have hlax : orderedOccLax (splitWS (lowerL "ab b".toList))
      (lowerL ("ab".toList)) := by
    refine ⟨0, Nat.le_refl 0, by decide, ⟨1, by omega, by decide, trivial⟩⟩
  have hres := h [⟨0, 1, "ab".toList⟩, ⟨2, 3, "ab  b".toList⟩] "ab b".toList
    (by decide) [] ⟨0, 1, "ab".toList⟩ [⟨2, 3, "ab  b".toList⟩] rfl
    (by intro x hx; exact absurd hx (List.not_mem_nil x)) hlax
  exact absurd hres (by decide)

/-- C3 amended: an entry passes tier 2 exactly when every query word occurs
in query order with each occurrence starting at or after the end of the
previous word's occurrence (matches may not overlap), and when the exact
tier fails `find_dialogue` returns the first entry in sequence order
satisfying this condition. -/
theorem ordered_subsequence_tier (entries : List SubtitleEntry) (query : List Char)
    (h1 : ∀ e ∈ entries, containsSub (lowerL e.text) (lowerL query) = false) :
    (∀ t, wordsInOrder (splitWS (lowerL query)) t = true ↔
      orderedOcc (splitWS (lowerL query)) t) ∧
    ((∃ e ∈ entries, orderedOcc (splitWS (lowerL query)) (lowerL e.text)) →
      ∃ pre e post, entries = pre ++ e :: post ∧
        (∀ x ∈ pre, ¬ orderedOcc (splitWS (lowerL query)) (lowerL x.text)) ∧
        orderedOcc (splitWS (lowerL query)) (lowerL e.text) ∧
        find_dialogue entries query = .ok e) := by
  refine ⟨fun t => wordsInOrder_iff_orderedOcc _ t, ?_⟩
  rintro ⟨e0, he0, hocc⟩
  have hn1 : entries.find?
      (fun x => containsSub (lowerL x.text) (lowerL query)) = none :=
    List.find?_eq_none.2 (fun x hx => by simp [h1 x hx])
  have hp0 : (fun x => wordsInOrder (splitWS (lowerL query)) (lowerL x.text)) e0
      = true := (wordsInOrder_iff_orderedOcc _ _).2 hocc
  obtain ⟨e, hfind⟩ := @find?_isSome_of_ex _
    (fun x => wordsInOrder (splitWS (lowerL query)) (lowerL x.text)) entries e0 he0 hp0
  obtain ⟨pre, post, hdec, hpre, hpe⟩ := find?_eq_some_decomp _ entries e hfind
  refine ⟨pre, e, post, hdec, ?_, (wordsInOrder_iff_orderedOcc _ _).1 hpe, ?_⟩
  · intro x hx hox
    exact hpre x hx ((wordsInOrder_iff_orderedOcc _ _).2 hox)
  · simp only [find_dialogue, hn1, hfind]

/-- Witness for the amended C3 at a concrete input (query with doubled
space so that the exact tier fails and tier 2 decides). -/
theorem ordered_subsequence_tier_witness :
    (∀ e ∈ [(⟨0, 1, "he said yes".toList⟩ : SubtitleEntry)],
      containsSub (lowerL e.text) (lowerL "said  yes".toList) = false) ∧
    ((∀ t, wordsInOrder (splitWS (lowerL "said  yes".toList)) t = true ↔
      orderedOcc (splitWS (lowerL "said  yes".toList)) t) ∧
    ((∃ e ∈ [(⟨0, 1, "he said yes".toList⟩ : SubtitleEntry)],
        orderedOcc (splitWS (lowerL "said  yes".toList)) (lowerL e.text)) →
      ∃ pre e post,
        [(⟨0, 1, "he said yes".toList⟩ : SubtitleEntry)] = pre ++ e :: post ∧
        (∀ x ∈ pre, ¬ orderedOcc (splitWS (lowerL "said  yes".toList)) (lowerL x.text)) ∧
        orderedOcc (splitWS (lowerL "said  yes".toList)) (lowerL e.text) ∧
        find_dialogue [(⟨0, 1, "he said yes".toList⟩ : SubtitleEntry)]
          "said  yes".toList = .ok e)) :=
  ⟨by decide, ordered_subsequence_tier _ _ (by decide)⟩

/-! ## The fuzzy majority tier (C2) -/

lemma mergeBest_none_left (b : Option (SubtitleEntry × Nat)) :
    mergeBest none b = b := rfl

lemma mergeBest_none_right (a : Option (SubtitleEntry × Nat)) :
    mergeBest a none = a := by
  cases a with
  | none => rfl
  | some pr => obtain ⟨x, cx⟩ := pr; rfl

lemma mergeBest_eq_none {a b : Option (SubtitleEntry × Nat)} :
    mergeBest a b = none ↔ a = none ∧ b = none := by
  cases a with
  | none => simp [mergeBest]
  | some pr =>
    obtain ⟨x, cx⟩ := pr
    cases b with
    | none => simp [mergeBest]
    | some pr2 =>
      obtain ⟨y, cy⟩ := pr2
      simp only [mergeBest]
      split_ifs <;> simp

lemma mergeBest_assoc (a b c : Option (SubtitleEntry × Nat)) :
    mergeBest (mergeBest a b) c = mergeBest a (mergeBest b c) := by
  cases a with
  | none => rw [mergeBest_none_left, mergeBest_none_left]
  | some pra =>
    obtain ⟨x, cx⟩ := pra
    cases b with
    | none => rw [mergeBest_none_left, mergeBest_none_right]
    | some prb =>
      obtain ⟨y, cy⟩ := prb
      cases c with
      | none => rw [mergeBest_none_right, mergeBest_none_right]
      | some prc =>
        obtain ⟨z, cz⟩ := prc
        simp only [mergeBest]
        split_ifs <;> simp only [mergeBest] <;> split_ifs <;>
          first
          | rfl
          | omega

lemma fuzzyStep_eq_merge (ws : List (List Char)) (acc : Option (SubtitleEntry × Nat))
    (e : SubtitleEntry) :
    fuzzyStep ws acc e = mergeBest acc
      (if 0 < countWords ws (lowerL e.text) then
        some (e, countWords ws (lowerL e.text)) else none) := by
  by_cases hm : 0 < countWords ws (lowerL e.text)
  · cases acc with
    | none => simp [fuzzyStep, mergeBest, hm]
    | some pr =>
      obtain ⟨be, bc⟩ := pr
      by_cases hlt : bc < countWords ws (lowerL e.text)
      · simp [fuzzyStep, mergeBest, hm, hlt]
      · simp [fuzzyStep, mergeBest, hm, hlt]
  · cases acc with
    | none => simp [fuzzyStep, mergeBest, hm]
    | some pr => obtain ⟨be, bc⟩ := pr; simp [fuzzyStep, mergeBest, hm]

lemma foldl_eq_mergeBest (ws : List (List Char)) :
    ∀ (l : List SubtitleEntry) (acc : Option (SubtitleEntry × Nat)),
      l.foldl (fuzzyStep ws) acc = mergeBest acc (bestOf ws l) := by
  intro l
  induction l with
  | nil => intro acc; rw [List.foldl_nil, bestOf, mergeBest_none_right]
  | cons e rest ih =>
    intro acc
    rw [List.foldl_cons, ih, fuzzyStep_eq_merge, mergeBest_assoc]
    rfl

lemma bestOf_eq_none_iff (ws : List (List Char)) :
    ∀ l : List SubtitleEntry,
      bestOf ws l = none ↔ ∀ e ∈ l, countWords ws (lowerL e.text) = 0 := by
  intro l
  induction l with
  | nil => simp [bestOf]
  | cons a rest ih =>
    rw [bestOf, mergeBest_eq_none]
    constructor
    · rintro ⟨ha, hrest⟩
      intro e he
      rcases List.mem_cons.1 he with rfl | he
      · by_contra hne
        rw [if_pos (Nat.pos_of_ne_zero hne)] at ha
        exact absurd ha (by simp)
      · exact (ih.1 hrest) e he
    · intro hall
      refine ⟨?_, ih.2 (fun e he => hall e (List.mem_cons_of_mem a he))⟩
      rw [hall a (List.mem_cons_self a rest)]
      simp

lemma bestOf_some_spec (ws : List (List Char)) :
    ∀ (l : List SubtitleEntry) (e : SubtitleEntry) (c : Nat),
      bestOf ws l = some (e, c) →
        c = countWords ws (lowerL e.text) ∧ 0 < c ∧
        ∃ pre post, l = pre ++ e :: post ∧
          (∀ x ∈ pre, countWords ws (lowerL x.text) < c) ∧
          (∀ x ∈ post, countWords ws (lowerL x.text) ≤ c) := by
  intro l
  induction l with
  | nil => intro e c h; exact absurd h (by simp [bestOf])
  | cons a rest ih =>
    intro e c h
    rw [bestOf] at h
    by_cases hma : 0 < countWords ws (lowerL a.text)
    · rw [if_pos hma] at h
      cases hbr : bestOf ws rest with
      | none =>
        rw [hbr, mergeBest_none_right] at h
        injection h with h1
        injection h1 with h2 h3
        subst h2
        refine ⟨h3.symm, h3 ▸ hma, [], rest, rfl, by simp, ?_⟩
        intro x hx
        rw [(bestOf_eq_none_iff ws rest).1 hbr x hx]
        omega
      | some pr =>
        obtain ⟨b, cb⟩ := pr
        rw [hbr] at h
        obtain ⟨hcb, hcbpos, pre', post', hdec', hpre', hpost'⟩ := ih b cb hbr
        by_cases hlt : countWords ws (lowerL a.text) < cb
        · rw [show mergeBest (some (a, countWords ws (lowerL a.text))) (some (b, cb)) =
              some (b, cb) from by simp [mergeBest, hlt]] at h
          injection h with h1
          injection h1 with h2 h3
          subst h2
          subst h3
          refine ⟨hcb, hcbpos, a :: pre', post', by rw [hdec']; rfl, ?_, hpost'⟩
          intro x hx
          rcases List.mem_cons.1 hx with rfl | hx
          · exact hlt
          · exact hpre' x hx
        · rw [show mergeBest (some (a, countWords ws (lowerL a.text))) (some (b, cb)) =
              some (a, countWords ws (lowerL a.text)) from by simp [mergeBest, hlt]] at h
          injection h with h1
          injection h1 with h2 h3
          subst h2
          refine ⟨h3.symm, h3 ▸ hma, [], rest, rfl, by simp, ?_⟩
          intro x hx
          have hxcb : countWords ws (lowerL x.text) ≤ cb := by
            rw [hdec'] at hx
            rcases List.mem_append.1 hx with hx | hx
            · exact le_of_lt (hpre' x hx)
            · rcases List.mem_cons.1 hx with rfl | hx
              · exact le_of_eq hcb.symm
              · exact hpost' x hx
          omega
    · rw [if_neg hma, mergeBest_none_left] at h
      obtain ⟨hc, hcpos, pre', post', hdec', hpre', hpost'⟩ := ih e c h
      refine ⟨hc, hcpos, a :: pre', post', by rw [hdec']; rfl, ?_, hpost'⟩
      intro x hx
      rcases List.mem_cons.1 hx with rfl | hx
      · omega
      · exact hpre' x hx

lemma firstmax_unique {α : Type} (f : α → Nat) :
    ∀ (p1 q1 p2 q2 : List α) (e e' : α),
      p1 ++ e :: q1 = p2 ++ e' :: q2 →
      (∀ x ∈ p1, f x < f e) → (∀ x ∈ q1, f x ≤ f e) →
      (∀ x ∈ p2, f x < f e') → (∀ x ∈ q2, f x ≤ f e') → e = e' := by
  intro p1
  induction p1 with
  | nil =>
    intro q1 p2 q2 e e' heq hb1 ha1 hb2 ha2
    cases p2 with
    | nil =>
      simp only [List.nil_append] at heq
      exact (List.cons.injEq _ _ _ _ ▸ heq).1
    | cons b p2' =>
      simp only [List.nil_append, List.cons_append] at heq
      obtain ⟨rfl, hq1⟩ := List.cons.injEq _ _ _ _ ▸ heq
      have h1 : f e < f e' := hb2 e (List.mem_cons_self _ _)
      have h2 : f e' ≤ f e := ha1 e' (by rw [hq1]; simp)
      omega
  | cons a p1' ih =>
    intro q1 p2 q2 e e' heq hb1 ha1 hb2 ha2
    cases p2 with
    | nil =>
      simp only [List.nil_append, List.cons_append] at heq
      obtain ⟨rfl, hq2⟩ := List.cons.injEq _ _ _ _ ▸ heq
      have h1 : f a < f e := hb1 a (List.mem_cons_self _ _)
      have h2 : f e ≤ f a := ha2 e (by rw [← hq2]; simp)
      omega
    | cons b p2' =>
      simp only [List.cons_append] at heq
      obtain ⟨rfl, htail⟩ := List.cons.injEq _ _ _ _ ▸ heq
      exact ih q1 p2' q2 e e' htail
        (fun x hx => hb1 x (List.mem_cons_of_mem a hx)) ha1
        (fun x hx => hb2 x (List.mem_cons_of_mem a hx)) ha2

/-- C2: when the exact and ordered tiers both fail everywhere, the fuzzy tier
succeeds with entry `e` exactly when `e` is the first entry attaining the
maximum word count, that count is positive, and it reaches
`query_words.length / 2` (floor division); otherwise the lookup fails with
the not-found error carrying the query. -/
theorem fuzzy_tier_characterization (entries : List SubtitleEntry) (query : List Char)
    (h1 : ∀ e ∈ entries, containsSub (lowerL e.text) (lowerL query) = false)
    (h2 : ∀ e ∈ entries, wordsInOrder (splitWS (lowerL query)) (lowerL e.text) = false) :
    (∀ e, find_dialogue entries query = .ok e ↔
      fuzzyAccepts (splitWS (lowerL query)) entries e) ∧
    (find_dialogue entries query = .error query ↔
      ¬ ∃ e, fuzzyAccepts (splitWS (lowerL query)) entries e) := by
  have hn1 : entries.find?
      (fun x => containsSub (lowerL x.text) (lowerL query)) = none :=
    List.find?_eq_none.2 (fun x hx => by simp [h1 x hx])
  have hn2 : entries.find?
      (fun x => wordsInOrder (splitWS (lowerL query)) (lowerL x.text)) = none :=
    List.find?_eq_none.2 (fun x hx => by simp [h2 x hx])
  have hred : find_dialogue entries query =
      match bestOf (splitWS (lowerL query)) entries with
      | some (e, c) =>
        if (splitWS (lowerL query)).length / 2 ≤ c then .ok e else .error query
      | none => .error query := by
    simp only [find_dialogue, hn1, hn2]
    rw [bestFuzzy, foldl_eq_mergeBest, mergeBest_none_left]
  have hfwd : ∀ e, find_dialogue entries query = .ok e →
      fuzzyAccepts (splitWS (lowerL query)) entries e := by
    intro e hok
    rw [hred] at hok
    cases hbo : bestOf (splitWS (lowerL query)) entries with
    | none => rw [hbo] at hok; exact absurd hok (by simp)
    | some pr =>
      obtain ⟨e', c'⟩ := pr
      rw [hbo] at hok
      dsimp only at hok
      by_cases hth : (splitWS (lowerL query)).length / 2 ≤ c'
      · rw [if_pos hth] at hok
        injection hok with he'
        obtain ⟨hc, hcpos, pre, post, hdec, hpre, hpost⟩ :=
          bestOf_some_spec _ entries e' c' hbo
        rw [← he']
        refine ⟨pre, post, hdec, ?_, ?_, ?_, ?_⟩
        · rw [← hc]; exact hcpos
        · rw [← hc]; exact hth
        · intro x hx; rw [← hc]; exact hpre x hx
        · intro x hx; rw [← hc]; exact hpost x hx
      · rw [if_neg hth] at hok
        exact absurd hok (by simp)
  have hbwd : ∀ e, fuzzyAccepts (splitWS (lowerL query)) entries e →
      find_dialogue entries query = .ok e := by
    intro e hacc
    obtain ⟨pre, post, hdec, hcpos, hth, hpre, hpost⟩ := hacc
    cases hbo : bestOf (splitWS (lowerL query)) entries with
    | none =>
      have : countWords (splitWS (lowerL query)) (lowerL e.text) = 0 :=
        (bestOf_eq_none_iff _ entries).1 hbo e (by rw [hdec]; simp)
      omega
    | some pr =>
      obtain ⟨e', c'⟩ := pr
      obtain ⟨hc', hcpos', pre', post', hdec', hpre', hpost'⟩ :=
        bestOf_some_spec _ entries e' c' hbo
      have hee' : e = e' := by
        refine firstmax_unique (fun x => countWords (splitWS (lowerL query)) (lowerL x.text))
          pre post pre' post' e e' (hdec ▸ hdec' ▸ rfl) hpre hpost ?_ ?_
        · intro x hx
          show countWords (splitWS (lowerL query)) (lowerL x.text) <
            countWords (splitWS (lowerL query)) (lowerL e'.text)
          rw [← hc']
          exact hpre' x hx
        · intro x hx
          show countWords (splitWS (lowerL query)) (lowerL x.text) ≤
            countWords (splitWS (lowerL query)) (lowerL e'.text)
          rw [← hc']
          exact hpost' x hx
      subst hee'
      rw [hred, hbo]
      dsimp only
      rw [if_pos (by rw [hc']; exact hth)]
  refine ⟨fun e => ⟨hfwd e, hbwd e⟩, ?_, ?_⟩
  · intro herr ⟨e, hacc⟩
    rw [hbwd e hacc] at herr
    exact absurd herr (by simp)
  · intro hne
    rw [hred]
    cases hbo : bestOf (splitWS (lowerL query)) entries with
    | none => rfl
    | some pr =>
      obtain ⟨e', c'⟩ := pr
      obtain ⟨hc', hcpos', pre', post', hdec', hpre', hpost'⟩ :=
        bestOf_some_spec _ entries e' c' hbo
      dsimp only
      by_cases hth : (splitWS (lowerL query)).length / 2 ≤ c'
      · refine absurd ⟨e', pre', post', hdec', ?_, ?_, ?_, ?_⟩ hne
        · rw [← hc']; exact hcpos'
        · rw [← hc']; exact hth
        · intro x hx; rw [← hc']; exact hpre' x hx
        · intro x hx; rw [← hc']; exact hpost' x hx
      · rw [if_neg hth]

/-- Witness for C2 at a concrete input where the fuzzy tier decides (4-word
query, best entry matches exactly 2 words, threshold 4 / 2 = 2). -/
theorem fuzzy_tier_characterization_witness :
    (∀ e ∈ [(⟨0, 1, "alpha beta gamma".toList⟩ : SubtitleEntry), ⟨2, 3, "delta epsilon".toList⟩],
      containsSub (lowerL e.text) (lowerL "alpha beta zzz qqq".toList) = false) ∧
    (∀ e ∈ [(⟨0, 1, "alpha beta gamma".toList⟩ : SubtitleEntry), ⟨2, 3, "delta epsilon".toList⟩],
      wordsInOrder (splitWS (lowerL "alpha beta zzz qqq".toList)) (lowerL e.text) = false) ∧
    ((∀ e, find_dialogue
        [(⟨0, 1, "alpha beta gamma".toList⟩ : SubtitleEntry), ⟨2, 3, "delta epsilon".toList⟩]
        "alpha beta zzz qqq".toList = .ok e ↔
      fuzzyAccepts (splitWS (lowerL "alpha beta zzz qqq".toList))
        [(⟨0, 1, "alpha beta gamma".toList⟩ : SubtitleEntry), ⟨2, 3, "delta epsilon".toList⟩] e) ∧
    (find_dialogue
        [(⟨0, 1, "alpha beta gamma".toList⟩ : SubtitleEntry), ⟨2, 3, "delta epsilon".toList⟩]
        "alpha beta zzz qqq".toList = .error "alpha beta zzz qqq".toList ↔
      ¬ ∃ e, fuzzyAccepts (splitWS (lowerL "alpha beta zzz qqq".toList))
        [(⟨0, 1, "alpha beta gamma".toList⟩ : SubtitleEntry), ⟨2, 3, "delta epsilon".toList⟩] e)) :=
  ⟨by decide, by decide, fuzzy_tier_characterization _ _ (by decide) (by decide)⟩

/-! ## Tag stripping (C8): unfolding lemmas for the fuelled recursions -/

lemma replaceAllFuel_congr :
    ∀ (n m : Nat) (pat s : List Char), pat ≠ [] →
      s.length < n → s.length < m →
      replaceAllFuel n pat s = replaceAllFuel m pat s := by
  intro n
  induction n with
  | zero => intro m pat s hp hn hm; omega
  | succ n ih =>
    intro m pat s hp hn hm
    cases m with
    | zero => omega
    | succ m =>
      simp only [replaceAllFuel]
      cases hf : findSub s pat with
      | none => rfl
      | some p =>
        have h3 := findSub_some_spec s pat p hf
        have hlp : 1 ≤ pat.length := by
          cases pat with
          | nil => exact absurd rfl hp
          | cons a l => simp
        have hd1 : (s.drop (p + pat.length)).length < n := by
          rw [List.length_drop]; omega
        have hd2 : (s.drop (p + pat.length)).length < m := by
          rw [List.length_drop]; omega
        dsimp only
        rw [ih m pat (s.drop (p + pat.length)) hp hd1 hd2]

lemma replaceAll_eq (pat s : List Char) (hp : pat ≠ []) :
    replaceAll pat s = match findSub s pat with
      | none => s
      | some p => s.take p ++ replaceAll pat (s.drop (p + pat.length)) := by
  rw [replaceAll]
  simp only [replaceAllFuel]
  cases hf : findSub s pat with
  | none => rfl
  | some p =>
    have h3 := findSub_some_spec s pat p hf
    have hlp : 1 ≤ pat.length := by
      cases pat with
      | nil => exact absurd rfl hp
      | cons a l => simp
    dsimp only
    rw [replaceAll]
    congr 1
    apply replaceAllFuel_congr
    · exact hp
    · rw [List.length_drop]; omega
    · omega

/-! ## Small list lemmas used by the tag-stripping invariant -/

lemma dropAppendLe :
    ∀ (u v : List Char) (i : Nat), i ≤ u.length →
      (u ++ v).drop i = u.drop i ++ v := by
  intro u
  induction u with
  | nil =>
    intro v i hi
    have hi0 : i = 0 := by simp at hi; omega
    subst hi0
    simp
  | cons a u ih =>
    intro v i hi
    cases i with
    | zero => simp
    | succ j =>
      simp only [List.cons_append, List.drop_succ_cons]
      exact ih v j (by simpa using hi)

lemma dropAppendGe :
    ∀ (u v : List Char) (i : Nat), u.length ≤ i →
      (u ++ v).drop i = v.drop (i - u.length) := by
  intro u
  induction u with
  | nil => intro v i hi; simp
  | cons a u ih =>
    intro v i hi
    cases i with
    | zero => simp at hi
    | succ j =>
      simp only [List.cons_append, List.drop_succ_cons, List.length_cons,
        Nat.succ_sub_succ]
      exact ih v j (by simpa using hi)

lemma headAppendLeft (u v : List Char) (h : u ≠ []) :
    (u ++ v).head? = u.head? := by
  cases u with
  | nil => exact absurd rfl h
  | cons a l => rfl

lemma headTakePos (l : List Char) (n : Nat) (h : 0 < n) :
    (l.take n).head? = l.head? := by
  rw [List.head?_take]
  simp [Nat.pos_iff_ne_zero.1 h]

lemma takeAppendLe :
    ∀ (u r : List Char) (n : Nat), u.length ≤ n →
      (u ++ r).take n = u ++ r.take (n - u.length) := by
  intro u
  induction u with
  | nil => intro r n hn; simp
  | cons a u ih =>
    intro r n hn
    cases n with
    | zero => simp at hn
    | succ m =>
      simp only [List.cons_append, List.take_succ_cons, List.length_cons,
        Nat.succ_sub_succ]
      rw [ih r m (by simpa using hn)]

lemma prefixCharAt {u x : List Char} {i : Nat}
    (h : u.isPrefixOf (x.drop i) = true) (j : Nat) (hj : j < u.length) :
    (x.drop (i + j)).head? = (u.drop j).head? := by
  obtain ⟨r, hr⟩ := (isPrefixOf_iff_ex u (x.drop i)).1 h
  have hdd : x.drop (i + j) = (x.drop i).drop j := by
    rw [List.drop_drop, Nat.add_comm]
  rw [hdd, hr, dropAppendLe u r j (le_of_lt hj)]
  exact headAppendLeft _ _ (List.length_pos.1 (by rw [List.length_drop]; omega))

lemma prefixTakeOf {u s : List Char} {i p : Nat}
    (h : u.isPrefixOf (s.drop i) = true) (hfit : i + u.length ≤ p) :
    u.isPrefixOf ((s.take p).drop i) = true := by
  obtain ⟨r, hr⟩ := (isPrefixOf_iff_ex _ _).1 h
  rw [List.drop_take, hr, takeAppendLe u r (p - i) (by omega)]
  exact (isPrefixOf_iff_ex _ _).2 ⟨r.take (p - i - u.length), rfl⟩

lemma prefixAppendRight {u x : List Char} (v : List Char)
    (h : u.isPrefixOf x = true) : u.isPrefixOf (x ++ v) = true := by
  obtain ⟨r, hr⟩ := (isPrefixOf_iff_ex _ _).1 h
  exact (isPrefixOf_iff_ex _ _).2 ⟨r ++ v, by rw [hr, List.append_assoc]⟩

lemma dropLenSubOneHead :
    ∀ (x : List Char), x ≠ [] → (x.drop (x.length - 1)).head? = x.getLast? := by
  intro x
  induction x with
  | nil => intro h; exact absurd rfl h
  | cons a y ih =>
    intro h
    cases hy : y with
    | nil => subst hy; rfl
    | cons b z =>
      subst hy
      have hlen : (a :: b :: z).length - 1 = (b :: z).length - 1 + 1 := by
        simp only [List.length_cons]
        omega
      rw [hlen, List.drop_succ_cons, ih (by simp), List.getLast?_cons_cons]

/-! ## Preservation of the every-bracket-starts-a-tag condition -/

lemma goodTags_drop {T : List (List Char)} {s : List Char} (k : Nat)
    (h : goodTags T s) : goodTags T (s.drop k) := by
  intro i hi hhead
  rw [List.drop_drop] at hhead ⊢
  rw [List.length_drop] at hi
  exact h (k + i) (by omega) hhead

lemma goodTags_take {T : List (List Char)} {s : List Char} (p : Nat) (c : Char)
    (h : goodTags T s) (hp : (s.drop p).head? = some c) (hc : ∀ u ∈ T, c ∉ u) :
    goodTags T (s.take p) := by
  intro i hi hhead
  rw [List.length_take] at hi
  have hip : i < p := lt_of_lt_of_le hi (min_le_left _ _)
  have his : i < s.length := lt_of_lt_of_le hi (min_le_right _ _)
  have hhs : (s.drop i).head? = some '<' := by
    rw [List.drop_take, headTakePos _ _ (by omega)] at hhead
    exact hhead
  obtain ⟨u, hu, hupref⟩ := h i his hhs
  have hfit : i + u.length ≤ p := by
    by_contra hnf
    have hj : p - i < u.length := by omega
    have h6 := prefixCharAt hupref (p - i) hj
    rw [show i + (p - i) = p from by omega, hp] at h6
    have hmem : c ∈ u.drop (p - i) := by
      cases hud : u.drop (p - i) with
      | nil => rw [hud] at h6; exact absurd h6 (by simp)
      | cons a l =>
        rw [hud] at h6
        simp only [List.head?_cons, Option.some.injEq] at h6
        rw [h6]
        exact List.mem_cons_self _ _
    exact hc u hu (List.mem_of_mem_drop hmem)
  exact ⟨u, hu, prefixTakeOf hupref hfit⟩

lemma goodTags_append {T : List (List Char)} {u v : List Char}
    (hu : goodTags T u) (hv : goodTags T v) : goodTags T (u ++ v) := by
  intro i hi hhead
  rw [List.length_append] at hi
  by_cases hiu : i < u.length
  · rw [dropAppendLe u v i (le_of_lt hiu)] at hhead ⊢
    have hne : u.drop i ≠ [] :=
      List.length_pos.1 (by rw [List.length_drop]; omega)
    rw [headAppendLeft _ _ hne] at hhead
    obtain ⟨t, ht, hpf⟩ := hu i hiu hhead
    exact ⟨t, ht, prefixAppendRight v hpf⟩
  · rw [dropAppendGe u v i (by omega)] at hhead ⊢
    exact hv (i - u.length) (by omega) hhead

lemma goodTags_cons {T : List (List Char)} {x : List Char} {c : Char}
    (hc : c ≠ '<') (h : goodTags T x) : goodTags T (c :: x) := by
  intro i hi hhead
  cases i with
  | zero =>
    simp only [List.drop_zero, List.head?_cons, Option.some.injEq] at hhead
    exact absurd hhead hc
  | succ j =>
    rw [List.drop_succ_cons] at hhead ⊢
    rw [List.length_cons] at hi
    exact h j (by omega) hhead

lemma goodTags_stripCR {T : List (List Char)} {x : List Char}
    (hcr : ∀ u ∈ T, '\r' ∉ u) (h : goodTags T x) : goodTags T (stripCR x) := by
  rw [stripCR]
  split_ifs with hlast
  · have hne : x ≠ [] := by rintro rfl; simp at hlast
    rw [List.dropLast_eq_take]
    exact goodTags_take (x.length - 1) '\r' h
      (by rw [dropLenSubOneHead x hne]; exact hlast) hcr
  · exact h

/-! ## One stripping pass removes its marker and preserves the invariant -/

lemma replaceAll_good (t rt : List Char) (hform : t = '<' :: rt)
    (T T' : List (List Char))
    (hT : ∀ u ∈ T, tagForm u) (hTT' : ∀ u ∈ T, u ≠ t → u ∈ T') :
    ∀ (n : Nat) (s : List Char), s.length < n → goodTags T s →
      goodTags T' (replaceAll t s) := by
  intro n
  induction n with
  | zero => intro s h; omega
  | succ n ih =>
    intro s hlen hgood
    have htne : t ≠ [] := by simp [hform]
    rw [replaceAll_eq t s htne]
    cases hf : findSub s t with
    | none =>
      intro i hi hhead
      obtain ⟨u, hu, hpref⟩ := hgood i hi hhead
      refine ⟨u, hTT' u hu ?_, hpref⟩
      rintro rfl
      exact (findSub_eq_none_iff s u).1 hf i hpref
    | some p =>
      obtain ⟨hpre_t, hmin, hple⟩ := findSub_some_spec s t p hf
      have hlt1 : 1 ≤ t.length := by simp [hform]
      have hlend : (s.drop (p + t.length)).length < n := by
        rw [List.length_drop]; omega
      have hR := ih (s.drop (p + t.length)) hlend (goodTags_drop _ hgood)
      intro i hi hhead
      have htl : (s.take p).length = p := by rw [List.length_take]; omega
      rw [List.length_append, htl] at hi
      by_cases hip : i < p
      · rw [dropAppendLe _ _ i (by rw [htl]; omega)] at hhead ⊢
        have hne : (s.take p).drop i ≠ [] :=
          List.length_pos.1 (by rw [List.length_drop, htl]; omega)
        rw [headAppendLeft _ _ hne] at hhead
        have hhs : (s.drop i).head? = some '<' := by
          rw [List.drop_take, headTakePos _ _ (by omega)] at hhead
          exact hhead
        obtain ⟨u, hu, hupref⟩ := hgood i (by omega) hhs
        have hune : u ≠ t := by
          rintro rfl
          exact hmin i hip hupref
        have hfit : i + u.length ≤ p := by
          by_contra hnf
          have hj : p - i < u.length := by omega
          have h6 := prefixCharAt hupref (p - i) hj
          have hps : (s.drop p).head? = some '<' := by
            obtain ⟨r, hr⟩ := (isPrefixOf_iff_ex _ _).1 hpre_t
            rw [hr, hform]
            rfl
          rw [show i + (p - i) = p from by omega, hps] at h6
          obtain ⟨ru, hru, hrunolt⟩ := hT u hu
          have hdru : u.drop (p - i) = ru.drop (p - i - 1) := by
            obtain ⟨j, hj⟩ : ∃ j, p - i = j + 1 := ⟨p - i - 1, by omega⟩
            rw [hru, hj, List.drop_succ_cons]
            all_goals congr 1
          rw [hdru] at h6
          have hmem : '<' ∈ ru.drop (p - i - 1) := by
            cases hud : ru.drop (p - i - 1) with
            | nil => rw [hud] at h6; exact absurd h6 (by simp)
            | cons a l =>
              rw [hud] at h6
              simp only [List.head?_cons, Option.some.injEq] at h6
              rw [← h6]
              exact List.mem_cons_self _ _
          exact hrunolt (List.mem_of_mem_drop hmem)
        exact ⟨u, hTT' u hu hune, prefixAppendRight _ (prefixTakeOf hupref hfit)⟩
      · rw [dropAppendGe _ _ i (by rw [htl]; omega)] at hhead ⊢
        rw [htl] at hhead ⊢
        exact hR (i - p) (by omega) hhead

lemma tagForm_mem_tagList : ∀ u ∈ tagList, tagForm u := by
  intro u hu
  simp only [tagList, List.mem_cons, List.not_mem_nil, or_false] at hu
  rcases hu with rfl | rfl | rfl | rfl | rfl | rfl
  · exact ⟨['i', '>'], rfl, by decide⟩
  · exact ⟨['/', 'i', '>'], rfl, by decide⟩
  · exact ⟨['b', '>'], rfl, by decide⟩
  · exact ⟨['/', 'b', '>'], rfl, by decide⟩
  · exact ⟨['u', '>'], rfl, by decide⟩
  · exact ⟨['/', 'u', '>'], rfl, by decide⟩

lemma stripTags_good (s : List Char) (h : goodTags tagList s) :
    goodTags [] (stripTags s) := by
  have hs : stripTags s =
      replaceAll "</u>".toList (replaceAll "<u>".toList (replaceAll "</b>".toList
        (replaceAll "<b>".toList (replaceAll "</i>".toList
          (replaceAll "<i>".toList s))))) := rfl
  rw [hs]
  have m1 : ∀ u ∈ tagList.drop 1, u ∈ tagList := by decide
  have m2 : ∀ u ∈ tagList.drop 2, u ∈ tagList := by decide
  have m3 : ∀ u ∈ tagList.drop 3, u ∈ tagList := by decide
  have m4 : ∀ u ∈ tagList.drop 4, u ∈ tagList := by decide
  have m5 : ∀ u ∈ tagList.drop 5, u ∈ tagList := by decide
  have g1 : goodTags (tagList.drop 1) (replaceAll "<i>".toList s) :=
    replaceAll_good "<i>".toList ['i', '>'] rfl tagList _
      tagForm_mem_tagList (by decide) (s.length + 1) s (by omega) h
  have g2 : goodTags (tagList.drop 2)
      (replaceAll "</i>".toList (replaceAll "<i>".toList s)) :=
    replaceAll_good "</i>".toList ['/', 'i', '>'] rfl (tagList.drop 1) _
      (fun u hu => tagForm_mem_tagList u (m1 u hu)) (by decide)
      ((replaceAll "<i>".toList s).length + 1) _ (by omega) g1
  have g3 : goodTags (tagList.drop 3)
      (replaceAll "<b>".toList (replaceAll "</i>".toList
        (replaceAll "<i>".toList s))) :=
    replaceAll_good "<b>".toList ['b', '>'] rfl (tagList.drop 2) _
      (fun u hu => tagForm_mem_tagList u (m2 u hu)) (by decide)
      ((replaceAll "</i>".toList (replaceAll "<i>".toList s)).length + 1) _
      (by omega) g2
  have g4 : goodTags (tagList.drop 4)
      (replaceAll "</b>".toList (replaceAll "<b>".toList
        (replaceAll "</i>".toList (replaceAll "<i>".toList s)))) :=
    replaceAll_good "</b>".toList ['/', 'b', '>'] rfl (tagList.drop 3) _
      (fun u hu => tagForm_mem_tagList u (m3 u hu)) (by decide)
      ((replaceAll "<b>".toList (replaceAll "</i>".toList
        (replaceAll "<i>".toList s))).length + 1) _ (by omega) g3
  have g5 : goodTags (tagList.drop 5)
      (replaceAll "<u>".toList (replaceAll "</b>".toList
        (replaceAll "<b>".toList (replaceAll "</i>".toList
          (replaceAll "<i>".toList s))))) :=
    replaceAll_good "<u>".toList ['u', '>'] rfl (tagList.drop 4) _
      (fun u hu => tagForm_mem_tagList u (m4 u hu)) (by decide)
      ((replaceAll "</b>".toList (replaceAll "<b>".toList
        (replaceAll "</i>".toList (replaceAll "<i>".toList s)))).length + 1) _
      (by omega) g4
  exact replaceAll_good "</u>".toList ['/', 'u', '>'] rfl
    (tagList.drop 5) [] (fun u hu => tagForm_mem_tagList u (m5 u hu)) (by decide)
    ((replaceAll "<u>".toList (replaceAll "</b>".toList
      (replaceAll "<b>".toList (replaceAll "</i>".toList
        (replaceAll "<i>".toList s))))).length + 1) _ (by omega) g5

/-! ## Propagation through the parsing pipeline -/

lemma splitOnFuel_good {T : List (List Char)} (c : Char) (srest : List Char)
    (hc : ∀ u ∈ T, c ∉ u) :
    ∀ (n : Nat) (s : List Char), goodTags T s →
      ∀ b ∈ splitOnFuel n (c :: srest) s, goodTags T b := by
  intro n
  induction n with
  | zero =>
    intro s hg b hb
    simp only [splitOnFuel, List.mem_singleton] at hb
    rwa [hb]
  | succ n ih =>
    intro s hg b hb
    simp only [splitOnFuel] at hb
    cases hf : findSub s (c :: srest) with
    | none =>
      rw [hf] at hb
      simp only [List.mem_singleton] at hb
      rwa [hb]
    | some p =>
      rw [hf] at hb
      simp only [List.mem_cons] at hb
      rcases hb with rfl | hb
      · have hpre := (findSub_some_spec s (c :: srest) p hf).1
        have hhead : (s.drop p).head? = some c := by
          obtain ⟨r, hr⟩ := (isPrefixOf_iff_ex _ _).1 hpre
          rw [hr]
          rfl
        exact goodTags_take p c hg hhead hc
      · exact ih (s.drop (p + (c :: srest).length)) (goodTags_drop _ hg) b hb

lemma rustLinesFuel_good {T : List (List Char)}
    (hnl : ∀ u ∈ T, '\n' ∉ u) (hcr : ∀ u ∈ T, '\r' ∉ u) :
    ∀ (n : Nat) (s : List Char), goodTags T s →
      ∀ l ∈ rustLinesFuel n s, goodTags T l := by
  intro n
  induction n with
  | zero =>
    intro s hg l hl
    simp only [rustLinesFuel] at hl
    split_ifs at hl
    · exact absurd hl (List.not_mem_nil l)
    · simp only [List.mem_singleton] at hl
      rwa [hl]
  | succ n ih =>
    intro s hg l hl
    simp only [rustLinesFuel] at hl
    cases hf : findSub s ['\n'] with
    | none =>
      rw [hf] at hl
      split_ifs at hl
      · exact absurd hl (List.not_mem_nil l)
      · simp only [List.mem_singleton] at hl
        rwa [hl]
    | some p =>
      rw [hf] at hl
      simp only [List.mem_cons] at hl
      rcases hl with rfl | hl
      · have hpre := (findSub_some_spec s ['\n'] p hf).1
        have hhead : (s.drop p).head? = some '\n' := by
          obtain ⟨r, hr⟩ := (isPrefixOf_iff_ex _ _).1 hpre
          rw [hr]
          rfl
        exact goodTags_stripCR hcr (goodTags_take p '\n' hg hhead hnl)
      · exact ih (s.drop (p + 1)) (goodTags_drop _ hg) l hl

lemma joinSpace_good {T : List (List Char)} :
    ∀ ls : List (List Char), (∀ l ∈ ls, goodTags T l) →
      goodTags T (joinSpace ls) := by
  intro ls
  induction ls with
  | nil =>
    intro _ i hi _
    simp [joinSpace] at hi
  | cons l ls ih =>
    intro h
    cases ls with
    | nil => exact h l (by simp)
    | cons l2 ls2 =>
      have hj : joinSpace (l :: l2 :: ls2) = l ++ ' ' :: joinSpace (l2 :: ls2) := rfl
      rw [hj]
      exact goodTags_append (h l (by simp))
        (goodTags_cons (by decide)
          (ih (fun x hx => h x (List.mem_cons_of_mem l hx))))

lemma mem_of_mem_dropWhile {α : Type} (p : α → Bool) :
    ∀ (l : List α) (a : α), a ∈ l.dropWhile p → a ∈ l := by
  intro l
  induction l with
  | nil => intro a h; simp at h
  | cons b bs ih =>
    intro a h
    rw [List.dropWhile_cons] at h
    split_ifs at h
    · exact List.mem_cons_of_mem b (ih a h)
    · exact h

lemma mem_trimChars {a : Char} {x : List Char} (h : a ∈ trimChars x) : a ∈ x := by
  rw [trimChars, List.mem_reverse] at h
  have h2 := mem_of_mem_dropWhile _ _ _ h
  rw [List.mem_reverse] at h2
  exact mem_of_mem_dropWhile _ _ _ h2

lemma mem_exists_drop {a : Char} :
    ∀ {l : List Char}, a ∈ l → ∃ i, i < l.length ∧ (l.drop i).head? = some a := by
  intro l
  induction l with
  | nil => intro h; simp at h
  | cons b bs ih =>
    intro h
    rcases List.mem_cons.1 h with rfl | h
    · exact ⟨0, by simp, rfl⟩
    · obtain ⟨i, hi, hh⟩ := ih h
      exact ⟨i + 1, by simp only [List.length_cons]; omega,
        by rwa [List.drop_succ_cons]⟩

lemma parseBlock_text {b : List Char} {e : SubtitleEntry}
    (h : parseBlock b = some e) :
    ∃ caps ts, findTs 0 (rustLines b) = some (caps, ts) ∧
      e.text = trimChars (stripTags (joinSpace ((rustLines b).drop ts))) := by
  simp only [parseBlock] at h
  by_cases hlen : (rustLines b).length < 3
  · rw [if_pos hlen] at h; exact absurd h (by simp)
  · rw [if_neg hlen] at h
    cases hts : findTs 0 (rustLines b) with
    | none => rw [hts] at h; exact absurd h (by simp)
    | some pr =>
      obtain ⟨caps, ts⟩ := pr
      rw [hts] at h
      dsimp only at h
      by_cases htxt : trimChars (stripTags (joinSpace ((rustLines b).drop ts))) = []
      · rw [if_pos htxt] at h; exact absurd h (by simp)
      · rw [if_neg htxt] at h
        injection h with h1
        exact ⟨caps, ts, rfl, by rw [← h1]⟩

/-- C8 counterexample: a single left-to-right literal-removal pass can leave
a tag pair behind when deleting a nested marker juxtaposes the halves of an
outer one: `<<i>i>x` strips to `<i>x`, so the parsed entry's text contains
`<i>` literally (and stripping is not idempotent). -/
theorem tag_stripping_cex :
    ¬ (∀ (content : List Char) (e : SubtitleEntry), e ∈ parseSRT content →
        ∀ tag ∈ tagList, ¬ ∃ u v, e.text = u ++ tag ++ v) := by
  intro h
  have hp : parseSRT ("x\n00:00:01,000 --> 00:00:02,000\n<<i>i>x".toList) =
      [⟨srtTime "00".toList "00".toList "01".toList "000".toList,
        srtTime "00".toList "00".toList "02".toList "000".toList,
        "<i>x".toList⟩] := rfl
  have hmem : (⟨srtTime "00".toList "00".toList "01".toList "000".toList,
      srtTime "00".toList "00".toList "02".toList "000".toList,
      "<i>x".toList⟩ : SubtitleEntry) ∈
      parseSRT ("x\n00:00:01,000 --> 00:00:02,000\n<<i>i>x".toList) :=
    hp.symm ▸ List.mem_singleton_self _
  exact h _ _ hmem "<i>".toList (by decide) ⟨[], "x".toList, by decide⟩

/-- C8 amended: a single pass removes every emphasis marker whenever each
`'<'` of the input begins a complete marker occurrence (the ordinary case,
including repeated and properly nested tags); under that condition the text
of every parsed entry contains none of the six markers. Without it a marker
split around a nested one (such as `<<i>i>`) survives the pass, so the
unconditional claim and idempotence fail. -/
theorem tag_stripping (content : List Char) (h : goodTags tagList content) :
    ∀ e ∈ parseSRT content, ∀ tag ∈ tagList, ¬ ∃ u v, e.text = u ++ tag ++ v := by
  intro e he tag htag hocc
  obtain ⟨u, v, huv⟩ := hocc
  obtain ⟨b, hb, hpb⟩ := List.mem_filterMap.1 he
  obtain ⟨caps, ts, -, htext⟩ := parseBlock_text hpb
  have hgb : goodTags tagList b :=
    splitOnFuel_good '\n' ['\n'] (by decide) (content.length + 1) content h b hb
  have hlines : ∀ l ∈ rustLines b, goodTags tagList l :=
    rustLinesFuel_good (by decide) (by decide) (b.length + 1) b hgb
  have hjoin : goodTags tagList (joinSpace ((rustLines b).drop ts)) :=
    joinSpace_good _ (fun x hx => hlines x (List.mem_of_mem_drop hx))
  have hstrip : goodTags [] (stripTags (joinSpace ((rustLines b).drop ts))) :=
    stripTags_good _ hjoin
  obtain ⟨rt, hrt, -⟩ := tagForm_mem_tagList tag htag
  have hmemtext : '<' ∈ e.text := by
    rw [huv, hrt]
    simp
  have hmemstrip : '<' ∈ stripTags (joinSpace ((rustLines b).drop ts)) :=
    mem_trimChars (htext ▸ hmemtext)
  obtain ⟨i, hi, hhead⟩ := mem_exists_drop hmemstrip
  obtain ⟨t', ht', -⟩ := hstrip i hi hhead
  exact absurd ht' (List.not_mem_nil t')

/-- Witness for the amended C8 at a concrete input with nested tags. -/
theorem tag_stripping_witness :
    goodTags tagList ("1\n00:00:01,000 --> 00:00:02,000\n<i><b>Hi</b></i>".toList) ∧
    (∀ e ∈ parseSRT ("1\n00:00:01,000 --> 00:00:02,000\n<i><b>Hi</b></i>".toList),
      ∀ tag ∈ tagList, ¬ ∃ u v, e.text = u ++ tag ++ v) :=
  ⟨by decide, tag_stripping _ (by decide)⟩

end Gifclip
